import Mathlib

/-!
Verification of the battleship placement engine: the 10×10 grid model, the
placement validator `canPlaceShipAt`, the commit operation `placeShip`, the
drag snap resolver `snapToGrid`, and the breadth-first rotation search
`rotateShip`, translated from the game component source.
-/

namespace Battleship

/-- A fleet slot: `position` is `none` while the ship sits in the unplaced
tray, otherwise the `(row, col)` of its topmost/leftmost occupied cell. -/
structure Ship where
  name : String
  size : Nat
  position : Option (Int × Int)
  color : String
  horizontal : Bool
deriving DecidableEq, Repr

/-- The five default fleet slots created at program start. -/
def defaultShips : List Ship :=
  [ ⟨"Carrier", 5, none, "#1E40AF", true⟩,
    ⟨"Battleship", 4, none, "#3B82F6", true⟩,
    ⟨"Cruiser", 3, none, "#60A5FA", true⟩,
    ⟨"Submarine", 3, none, "#93C5FD", true⟩,
    ⟨"Destroyer", 2, none, "#C0D6F0", true⟩ ]

/-- Pixel pitch of one board cell. -/
def gridSize : ℚ := 44

/-- `(row, col)` lies on the 10×10 board. -/
def inGrid (r c : Int) : Prop := 0 ≤ r ∧ r < 10 ∧ 0 ≤ c ∧ c < 10

instance (r c : Int) : Decidable (inGrid r c) := by unfold inGrid; infer_instance

/-- The overlap callback of the validator loop: the candidate cell `(r, c)`
lands inside `ship`, unless `ship` carries the excluded name or is still
unplaced. -/
def overlapsShip (name : String) (r c : Int) (ship : Ship) : Bool :=
  if ship.name = name then false
  else
    match ship.position with
    | none => false
    | some (pr, pc) =>
      if ship.horizontal then decide (r = pr ∧ pc ≤ c ∧ c < pc + (ship.size : Int))
      else decide (c = pc ∧ pr ≤ r ∧ r < pr + (ship.size : Int))

/-- The candidate placement validator, translated clause by clause from the
source: origin must be on the board, the ship's extent must fit, and no
occupied cell may land inside a differently named, already placed ship. -/
def canPlaceShipAt (pieces : List Ship) (name : String) (size : Nat)
    (startRow startCol : Int) (horizontal : Bool) : Bool :=
  if startRow < 0 ∨ 10 ≤ startRow ∨ startCol < 0 ∨ 10 ≤ startCol then false
  else if horizontal ∧ 10 < startCol + (size : Int) then false
  else if (¬ horizontal = true) ∧ 10 < startRow + (size : Int) then false
  else
    (List.range size).all fun i =>
      let r : Int := startRow + (if horizontal then 0 else (i : Int))
      let c : Int := startCol + (if horizontal then (i : Int) else 0)
      ! pieces.any (overlapsShip name r c)

/-- Commit of a drop: re-validate, then either move the named ship and answer
`true`, or leave the fleet alone and answer `false`.  The returned pair is
(returned boolean, fleet after the `setShipPieces` update). -/
def placeShip (pieces : List Ship) (name : String) (size : Nat)
    (startRow startCol : Int) (horizontal : Bool) : Bool × List Ship :=
  if canPlaceShipAt pieces name size startRow startCol horizontal then
    (true, pieces.map fun s =>
      if s.name = name then { s with position := some (startRow, startCol) } else s)
  else (false, pieces)

/-- Bounding rectangle of a DOM node; only the top-left corner matters to the
snap math. -/
structure Rect where
  top : ℚ
  left : ℚ
deriving DecidableEq, Repr

/-- A drag translation in pixels. -/
structure Translate where
  x : ℚ
  y : ℚ
deriving DecidableEq, Repr

/-- The drag modifier: while the dragged node's would-be cell is on the
board, replace the free-form translation by one that aligns the node with
that cell; otherwise pass the translation through.  `none` rectangles model
a missing board ref or node rect. -/
def snapToGrid (board : Option Rect) (node : Option Rect) (t : Translate) : Translate :=
  match board, node with
  | some b, some n =>
    let nearestRow : Int := round ((n.top - b.top + t.y) / gridSize)
    let nearestCol : Int := round ((n.left - b.left + t.x) / gridSize)
    if 0 ≤ nearestRow ∧ nearestRow < 10 ∧ 0 ≤ nearestCol ∧ nearestCol < 10 then
      { x := nearestCol * gridSize - (n.left - b.left),
        y := nearestRow * gridSize - (n.top - b.top) }
    else t
  | _, _ => t

/-- The occupied cells of a candidate placement: `size` consecutive cells
from the origin, rightward when horizontal, downward when vertical. -/
def placementCells (size : Nat) (startRow startCol : Int) (horizontal : Bool) :
    List (Int × Int) :=
  (List.range size).map fun (i : Nat) =>
    (startRow + (if horizontal then 0 else (i : Int)),
     startCol + (if horizontal then (i : Int) else 0))

/-- The occupied cells of a fleet slot; an unplaced ship occupies nothing. -/
def shipCells (s : Ship) : List (Int × Int) :=
  match s.position with
  | none => []
  | some (pr, pc) => placementCells s.size pr pc s.horizontal

/-- Every occupied cell of the ship is on the board. -/
def placedInBounds (s : Ship) : Prop := ∀ p ∈ shipCells s, inGrid p.1 p.2

instance (s : Ship) : Decidable (placedInBounds s) := by
  unfold placedInBounds; infer_instance

/-- The occupied cells of two fleet slots do not meet. -/
def cellsDisjoint (a b : Ship) : Prop := ∀ p ∈ shipCells a, p ∉ shipCells b

instance (a b : Ship) : Decidable (cellsDisjoint a b) := by
  unfold cellsDisjoint; infer_instance

/-- The fleet invariant: every placed ship is in bounds and any two slots
occupy disjoint cell sets. -/
def fleetInv (pieces : List Ship) : Prop :=
  (∀ s ∈ pieces, placedInBounds s) ∧ pieces.Pairwise cellsDisjoint

/-- Slot names are pairwise distinct (the fleet is keyed by unique name). -/
def namesDistinct (pieces : List Ship) : Prop :=
  pieces.Pairwise fun a b => a.name ≠ b.name

instance (pieces : List Ship) : Decidable (fleetInv pieces) := by
  unfold fleetInv; infer_instance

instance (pieces : List Ship) : Decidable (namesDistinct pieces) := by
  unfold namesDistinct; infer_instance

/-! ### The rotation search -/

/-- A frontier entry of the rotation search: a candidate pivot cell together
with the offset-from-origin that pivot represents in the new orientation. -/
abbrev SearchState := Int × Int × Int

/-- The pivot offset along the ship's long axis, `floor((size - 1) / 2)`. -/
def pivotOffset (size : Nat) : Int := ((size : Int) - 1).fdiv 2

/-- The four grid-adjacent expansions of a frontier entry, in source order:
up, down, left, right, the offset carried through. -/
def stepNeighbors (s : SearchState) : List SearchState :=
  [(s.1 - 1, s.2.1, s.2.2), (s.1 + 1, s.2.1, s.2.2),
   (s.1, s.2.1 - 1, s.2.2), (s.1, s.2.1 + 1, s.2.2)]

/-- Append each in-bounds, unvisited neighbor to the queue, marking it
visited as it is pushed. -/
def pushNeighbors : List SearchState → List SearchState → Finset SearchState →
    List SearchState × Finset SearchState
  | [], q, v => (q, v)
  | n :: ns, q, v =>
    if inGrid n.1 n.2.1 ∧ n ∉ v then pushNeighbors ns (q ++ [n]) (insert n v)
    else pushNeighbors ns q v

/-- Outcome of the rotation search loop. -/
inductive RotResult where
  | found : Int × Int → RotResult
  | exhausted : RotResult
  | fuelOut : RotResult
deriving DecidableEq, Repr

/-- The candidate new origin derived from a frontier entry: subtract the
offset from the pivot along the new orientation's long axis.  `horizontal`
is the ship's orientation before the flip. -/
def candidateOrigin (horizontal : Bool) (s : SearchState) : Int × Int :=
  (s.1 - (if horizontal then s.2.2 else 0), s.2.1 - (if horizontal then 0 else s.2.2))

/-- One `while` loop of the source, fuel-indexed so the recursion is
structural; `rotBfs_no_fuelOut` below shows the fuel bound is never hit. -/
def rotBfs (pieces : List Ship) (name : String) (size : Nat) (horizontal : Bool) :
    Nat → List SearchState → Finset SearchState → RotResult
  | 0, _, _ => .fuelOut
  | _ + 1, [], _ => .exhausted
  | fuel + 1, s :: rest, visited =>
    let org := candidateOrigin horizontal s
    if canPlaceShipAt pieces name size org.1 org.2 (!horizontal) then .found org
    else
      let step := pushNeighbors (stepNeighbors s) rest visited
      rotBfs pieces name size horizontal fuel step.1 step.2

/-- The first search seed: the pivot cell of the ship's current placement. -/
def primarySeed (ship : Ship) (pr pc : Int) : SearchState :=
  (pr + (if ship.horizontal then 0 else pivotOffset ship.size),
   pc + (if ship.horizontal then pivotOffset ship.size else 0),
   pivotOffset ship.size)

/-- The extra seed used for even sizes: the second of the two center cells,
with offset one higher. -/
def secondSeed (ship : Ship) (pr pc : Int) : SearchState :=
  ((primarySeed ship pr pc).1 + (if ship.horizontal then 0 else 1),
   (primarySeed ship pr pc).2.1 + (if ship.horizontal then 1 else 0),
   pivotOffset ship.size + 1)

/-- The initial queue: the pivot, plus the second center cell when the size
is even. -/
def rotationSeeds (ship : Ship) (pr pc : Int) : List SearchState :=
  if ship.size % 2 = 0 then [primarySeed ship pr pc, secondSeed ship pr pc]
  else [primarySeed ship pr pc]

/-- Fuel given to the search loop; `rotBfs_no_fuelOut` proves the loop ends
(queue empty or placement committed) long before this bound. -/
def searchFuel : Nat := 2000

/-- Rotate a placed ship: breadth-first search from the pivot for the first
frontier entry whose derived origin validates in the flipped orientation,
then commit it; a no-op for unplaced ships and when the frontier empties. -/
def rotateShip (pieces : List Ship) (ship : Ship) : List Ship :=
  match ship.position with
  | none => pieces
  | some (pr, pc) =>
    match rotBfs pieces ship.name ship.size ship.horizontal searchFuel
        (rotationSeeds ship pr pc) {primarySeed ship pr pc} with
    | .found (topRow, leftCol) =>
      pieces.map fun s =>
        if s.name = ship.name then
          { s with horizontal := !s.horizontal, position := some (topRow, leftCol) }
        else s
    | _ => pieces

/-- The search loop again, also returning the list of dequeued entries in
order; `rotBfsTrace_fst` shows it computes the same outcome as `rotBfs`. -/
def rotBfsTrace (pieces : List Ship) (name : String) (size : Nat) (horizontal : Bool) :
    Nat → List SearchState → Finset SearchState → RotResult × List SearchState
  | 0, _, _ => (.fuelOut, [])
  | _ + 1, [], _ => (.exhausted, [])
  | fuel + 1, s :: rest, visited =>
    let org := candidateOrigin horizontal s
    if canPlaceShipAt pieces name size org.1 org.2 (!horizontal) then (.found org, [s])
    else
      let step := pushNeighbors (stepNeighbors s) rest visited
      let next := rotBfsTrace pieces name size horizontal fuel step.1 step.2
      (next.1, s :: next.2)

theorem rotBfsTrace_fst (pieces : List Ship) (name : String) (size : Nat)
    (horizontal : Bool) :
    ∀ (fuel : Nat) (q : List SearchState) (v : Finset SearchState),
      (rotBfsTrace pieces name size horizontal fuel q v).1 =
        rotBfs pieces name size horizontal fuel q v := by
  intro fuel
  induction fuel with
  | zero => intro q v; rfl
  | succ fuel ih =>
    intro q v
    cases q with
    | nil => rfl
    | cons s rest =>
      simp only [rotBfsTrace, rotBfs]
      split <;> simp [ih]

/-! ### The placement validator, characterized cell by cell -/

theorem mem_placementCells {size : Nat} {r c : Int} {h : Bool} {p : Int × Int} :
    p ∈ placementCells size r c h ↔
      ∃ i : Nat, i < size ∧ p.1 = r + (if h then 0 else (i : Int)) ∧
        p.2 = c + (if h then (i : Int) else 0) := by
  unfold placementCells
  rw [List.mem_map]
  constructor
  · rintro ⟨i, hi, rfl⟩
    rw [List.mem_range] at hi
    exact ⟨i, hi, rfl, rfl⟩
  · rintro ⟨i, hi, h1, h2⟩
    refine ⟨i, List.mem_range.2 hi, ?_⟩
    apply Prod.ext
    · exact h1.symm
    · exact h2.symm

theorem mem_placementCells_h {size : Nat} {r c : Int} {p : Int × Int} :
    p ∈ placementCells size r c true ↔
      ∃ i : Nat, i < size ∧ p.1 = r ∧ p.2 = c + (i : Int) := by
  rw [mem_placementCells]
  constructor
  · rintro ⟨i, hi, h1, h2⟩
    simp only [if_true, eq_self_iff_true] at h1 h2
    simp at h1 h2
    exact ⟨i, hi, by omega, by omega⟩
  · rintro ⟨i, hi, h1, h2⟩
    exact ⟨i, hi, by simp [h1], by simp [h2]⟩

theorem mem_placementCells_v {size : Nat} {r c : Int} {p : Int × Int} :
    p ∈ placementCells size r c false ↔
      ∃ i : Nat, i < size ∧ p.1 = r + (i : Int) ∧ p.2 = c := by
  rw [mem_placementCells]
  constructor
  · rintro ⟨i, hi, h1, h2⟩
    simp only [Bool.false_eq_true, if_false] at h1 h2
    exact ⟨i, hi, h1, by omega⟩
  · rintro ⟨i, hi, h1, h2⟩
    exact ⟨i, hi, by simp [h1], by simp [h2]⟩

theorem mem_shipCells_h {s : Ship} {pr pc : Int} (hpos : s.position = some (pr, pc))
    (hh : s.horizontal = true) {p : Int × Int} :
    p ∈ shipCells s ↔ p.1 = pr ∧ pc ≤ p.2 ∧ p.2 < pc + (s.size : Int) := by
  rw [shipCells, hpos, hh, mem_placementCells_h]
  constructor
  · rintro ⟨i, hi, h1, h2⟩; exact ⟨h1, by omega, by omega⟩
  · rintro ⟨h1, h2, h3⟩
    exact ⟨(p.2 - pc).toNat, by omega, h1, by omega⟩

theorem mem_shipCells_v {s : Ship} {pr pc : Int} (hpos : s.position = some (pr, pc))
    (hh : s.horizontal = false) {p : Int × Int} :
    p ∈ shipCells s ↔ p.2 = pc ∧ pr ≤ p.1 ∧ p.1 < pr + (s.size : Int) := by
  rw [shipCells, hpos, hh, mem_placementCells_v]
  constructor
  · rintro ⟨i, hi, h1, h2⟩; exact ⟨h2, by omega, by omega⟩
  · rintro ⟨h1, h2, h3⟩
    exact ⟨(p.1 - pr).toNat, by omega, by omega, h1⟩

theorem overlapsShip_iff (ship : Ship) (name : String) (rr cc : Int) :
    overlapsShip name rr cc ship = true ↔
      ship.name ≠ name ∧ (rr, cc) ∈ shipCells ship := by
  rw [overlapsShip]
  by_cases hn : ship.name = name
  · simp [hn]
  · simp only [hn, if_false, ne_eq, not_false_iff, true_and]
    cases hpos : ship.position with
    | none => simp [shipCells, hpos]
    | some q =>
      obtain ⟨pr, pc⟩ := q
      cases hh : ship.horizontal
      · rw [mem_shipCells_v hpos hh]; simp
      · rw [mem_shipCells_h hpos hh]; simp

theorem cells_inGrid_h {size : Nat} {r c : Int} (hsz : 1 ≤ size) :
    (∀ p ∈ placementCells size r c true, inGrid p.1 p.2) ↔
      0 ≤ r ∧ r < 10 ∧ 0 ≤ c ∧ c + (size : Int) ≤ 10 := by
  constructor
  · intro hall
    have h0 := hall (r, c) (mem_placementCells_h.2 ⟨0, by omega, rfl, by simp⟩)
    have hl := hall (r, c + ((size - 1 : Nat) : Int))
      (mem_placementCells_h.2 ⟨size - 1, by omega, rfl, rfl⟩)
    rw [inGrid] at h0 hl
    simp only at h0 hl
    omega
  · rintro ⟨h1, h2, h3, h4⟩ p hp
    obtain ⟨i, hi, hp1, hp2⟩ := mem_placementCells_h.1 hp
    rw [inGrid]
    omega

theorem cells_inGrid_v {size : Nat} {r c : Int} (hsz : 1 ≤ size) :
    (∀ p ∈ placementCells size r c false, inGrid p.1 p.2) ↔
      0 ≤ c ∧ c < 10 ∧ 0 ≤ r ∧ r + (size : Int) ≤ 10 := by
  constructor
  · intro hall
    have h0 := hall (r, c) (mem_placementCells_v.2 ⟨0, by omega, by simp, rfl⟩)
    have hl := hall (r + ((size - 1 : Nat) : Int), c)
      (mem_placementCells_v.2 ⟨size - 1, by omega, rfl, rfl⟩)
    rw [inGrid] at h0 hl
    simp only at h0 hl
    omega
  · rintro ⟨h1, h2, h3, h4⟩ p hp
    obtain ⟨i, hi, hp1, hp2⟩ := mem_placementCells_v.1 hp
    rw [inGrid]
    omega

/-- C3 — `canPlaceShipAt` succeeds exactly when every cell of the candidate
placement is on the board and hits no occupied cell of a differently named,
already placed ship (the named ship is skipped; unplaced ships occupy no
cells).  The size is positive, as the data model fixes. -/
theorem canPlaceShipAt_correct (pieces : List Ship) (name : String) (size : Nat)
    (r c : Int) (h : Bool) (hsz : 1 ≤ size) :
    canPlaceShipAt pieces name size r c h = true ↔
      ((∀ p ∈ placementCells size r c h, inGrid p.1 p.2) ∧
        ∀ ship ∈ pieces, ship.name ≠ name →
          ∀ p ∈ placementCells size r c h, p ∉ shipCells ship) := by
  have hgrid : (∀ p ∈ placementCells size r c h, inGrid p.1 p.2) ↔
      ((0 ≤ r ∧ r < 10 ∧ 0 ≤ c ∧ c < 10) ∧
        ¬(h = true ∧ 10 < c + (size : Int)) ∧
        ¬((¬ h = true) ∧ 10 < r + (size : Int))) := by
    cases h
    · rw [cells_inGrid_v hsz]
      constructor
      · rintro ⟨h1, h2, h3, h4⟩; refine ⟨⟨by omega, by omega, h1, h2⟩, by simp, by simp; omega⟩
      · rintro ⟨⟨h1, h2, h3, h4⟩, -, h5⟩
        simp only [Bool.false_eq_true, not_false_iff, true_and, not_lt] at h5
        exact ⟨h3, h4, h1, h5⟩
    · rw [cells_inGrid_h hsz]
      constructor
      · rintro ⟨h1, h2, h3, h4⟩; refine ⟨⟨h1, h2, by omega, by omega⟩, by simp; omega, by simp⟩
      · rintro ⟨⟨h1, h2, h3, h4⟩, h5, -⟩
        simp only [true_and, not_lt] at h5
        exact ⟨h1, h2, h3, h5⟩
  rw [canPlaceShipAt]
  by_cases h1 : r < 0 ∨ 10 ≤ r ∨ c < 0 ∨ 10 ≤ c
  · rw [if_pos h1]
    simp only [Bool.false_eq_true, false_iff]
    rintro ⟨hall, -⟩
    have := (hgrid.1 hall).1
    omega
  rw [if_neg h1]
  by_cases h2 : h = true ∧ 10 < c + (size : Int)
  · rw [if_pos h2]
    simp only [Bool.false_eq_true, false_iff]
    rintro ⟨hall, -⟩
    exact (hgrid.1 hall).2.1 h2
  rw [if_neg h2]
  by_cases h3 : (¬ h = true) ∧ 10 < r + (size : Int)
  · rw [if_pos h3]
    simp only [Bool.false_eq_true, false_iff]
    rintro ⟨hall, -⟩
    exact (hgrid.1 hall).2.2 h3
  rw [if_neg h3]
  have hok : ∀ p ∈ placementCells size r c h, inGrid p.1 p.2 :=
    hgrid.2 ⟨by omega, h2, h3⟩
  simp only [List.all_eq_true, List.mem_range]
  constructor
  · intro hall
    refine ⟨hok, ?_⟩
    intro ship hship hname p hp hcell
    obtain ⟨i, hi, hp1, hp2⟩ := mem_placementCells.1 hp
    have hloop := hall i hi
    simp only [Bool.not_eq_true', List.any_eq_false] at hloop
    have hcheck := hloop ship hship
    rw [overlapsShip_iff] at hcheck
    refine hcheck ⟨hname, ?_⟩
    have hpeq : p = (r + (if h then 0 else (i : Int)), c + (if h then (i : Int) else 0)) := by
      apply Prod.ext <;> simpa
    rwa [← hpeq]
  · rintro ⟨-, hall⟩ i hi
    simp only [Bool.not_eq_true', List.any_eq_false]
    intro ship hship
    rw [overlapsShip_iff]
    rintro ⟨hname, hmem⟩
    exact hall ship hship hname _ (mem_placementCells.2 ⟨i, hi, rfl, rfl⟩) hmem

/-! ### Commit of a drop, snap resolver, frame conditions, no-op cases -/

/-- C5 — `placeShip` re-validates through `canPlaceShipAt`; on success it
returns `true` and moves exactly the named ship's origin to `(r, c)`, on
failure it returns `false` and leaves every ship unchanged. -/
theorem placeShip_spec (pieces : List Ship) (name : String) (size : Nat)
    (r c : Int) (h : Bool) :
    ((placeShip pieces name size r c h).1 = true ↔
      canPlaceShipAt pieces name size r c h = true) ∧
    (canPlaceShipAt pieces name size r c h = true →
      (placeShip pieces name size r c h).2 =
        pieces.map fun s =>
          if s.name = name then { s with position := some (r, c) } else s) ∧
    (canPlaceShipAt pieces name size r c h = false →
      (placeShip pieces name size r c h).2 = pieces) := by
  rw [placeShip]
  by_cases hc : canPlaceShipAt pieces name size r c h = true
  · rw [if_pos hc]
    refine ⟨by simp [hc], fun _ => rfl, fun hfalse => ?_⟩
    rw [hc] at hfalse
    cases hfalse
  · rw [if_neg hc]
    simp only [Bool.not_eq_true] at hc
    refine ⟨by simp [hc], fun htrue => ?_, fun _ => rfl⟩
    rw [htrue] at hc
    cases hc

/-- Witness for C5 at a concrete input: dropping the Destroyer at `(1, 0)`
next to a placed Carrier. -/
theorem placeShip_spec_witness :
    canPlaceShipAt [⟨"Carrier", 5, some (0, 0), "#1E40AF", true⟩] "Destroyer" 2 1 0 true
        = true ∧
      (placeShip [⟨"Carrier", 5, some (0, 0), "#1E40AF", true⟩] "Destroyer" 2 1 0 true).2 =
        ([⟨"Carrier", 5, some (0, 0), "#1E40AF", true⟩].map fun s =>
          if s.name = "Destroyer" then { s with position := some (1, 0) } else s) :=
  ⟨by decide,
    (placeShip_spec [⟨"Carrier", 5, some (0, 0), "#1E40AF", true⟩] "Destroyer" 2 1 0
      true).2.1 (by decide)⟩

/-- C9 — the snap resolver: with both rectangles present it rounds the
dragged node's offset position to a cell index on each axis; if that cell is
on the board it returns the translation aligning the node's top-left with
the cell's top-left, otherwise it passes the raw translation through. -/
theorem snapToGrid_spec (b n : Rect) (t : Translate) :
    ((0 ≤ round ((n.top - b.top + t.y) / gridSize) ∧
        round ((n.top - b.top + t.y) / gridSize) < 10 ∧
        0 ≤ round ((n.left - b.left + t.x) / gridSize) ∧
        round ((n.left - b.left + t.x) / gridSize) < 10) →
      snapToGrid (some b) (some n) t =
        { x := round ((n.left - b.left + t.x) / gridSize) * gridSize - (n.left - b.left),
          y := round ((n.top - b.top + t.y) / gridSize) * gridSize - (n.top - b.top) }) ∧
    (¬(0 ≤ round ((n.top - b.top + t.y) / gridSize) ∧
        round ((n.top - b.top + t.y) / gridSize) < 10 ∧
        0 ≤ round ((n.left - b.left + t.x) / gridSize) ∧
        round ((n.left - b.left + t.x) / gridSize) < 10) →
      snapToGrid (some b) (some n) t = t) := by
  rw [snapToGrid]
  constructor
  · intro hrange
    rw [if_pos hrange]
  · intro hrange
    rw [if_neg hrange]

/-- Witness for C9 at a concrete input: a node at the board origin dragged
by `(10, 10)` pixels snaps back onto cell `(0, 0)`. -/
theorem snapToGrid_spec_witness :
    (0 ≤ round ((((0:ℚ)) - 0 + 10) / gridSize) ∧
        round (((0:ℚ) - 0 + 10) / gridSize) < 10 ∧
        0 ≤ round (((0:ℚ) - 0 + 10) / gridSize) ∧
        round (((0:ℚ) - 0 + 10) / gridSize) < 10) ∧
      snapToGrid (some ⟨0, 0⟩) (some ⟨0, 0⟩) ⟨10, 10⟩ =
        { x := round (((0:ℚ) - 0 + 10) / gridSize) * gridSize - ((0:ℚ) - 0),
          y := round (((0:ℚ) - 0 + 10) / gridSize) * gridSize - ((0:ℚ) - 0) } := by
  have hr : round (((0:ℚ) - 0 + 10) / gridSize) = 0 := by
    rw [gridSize]
    norm_num [round_eq]
  refine ⟨⟨by rw [hr], by rw [hr]; norm_num, by rw [hr], by rw [hr]; norm_num⟩, ?_⟩
  exact (snapToGrid_spec ⟨0, 0⟩ ⟨0, 0⟩ ⟨10, 10⟩).1
    ⟨by rw [hr], by rw [hr]; norm_num, by rw [hr], by rw [hr]; norm_num⟩

/-- C10 — frame condition: each mutator rewrites the fleet through a
per-ship function that never touches a ship whose name differs from the
target, and preserves every ship's name, size and color (and, for
`placeShip`, its orientation). -/
theorem mutators_frame (pieces : List Ship) (name : String) (size : Nat)
    (r c : Int) (h : Bool) (ship : Ship) :
    (∃ f : Ship → Ship, (placeShip pieces name size r c h).2 = pieces.map f ∧
      ∀ s : Ship, (f s).name = s.name ∧ (f s).size = s.size ∧ (f s).color = s.color ∧
        (f s).horizontal = s.horizontal ∧ (s.name ≠ name → f s = s)) ∧
    (∃ g : Ship → Ship, rotateShip pieces ship = pieces.map g ∧
      ∀ s : Ship, (g s).name = s.name ∧ (g s).size = s.size ∧ (g s).color = s.color ∧
        (s.name ≠ ship.name → g s = s)) := by
  constructor
  · rw [placeShip]
    by_cases hc : canPlaceShipAt pieces name size r c h = true
    · rw [if_pos hc]
      refine ⟨fun s => if s.name = name then { s with position := some (r, c) } else s,
        rfl, fun s => ?_⟩
      by_cases hn : s.name = name
      · simp [hn]
      · simp [hn]
    · rw [if_neg hc]
      exact ⟨id, by simp, by simp⟩
  · cases hpos : ship.position with
    | none =>
      refine ⟨id, ?_, by simp⟩
      simp only [rotateShip, hpos, List.map_id]
    | some q =>
      obtain ⟨pr, pc⟩ := q
      cases hres : rotBfs pieces ship.name ship.size ship.horizontal searchFuel
          (rotationSeeds ship pr pc) {primarySeed ship pr pc} with
      | found org =>
        obtain ⟨tr, lc⟩ := org
        refine ⟨fun s => if s.name = ship.name then
          { s with horizontal := !s.horizontal, position := some (tr, lc) } else s,
          ?_, fun s => ?_⟩
        · simp only [rotateShip, hpos, hres]
        · by_cases hn : s.name = ship.name
          · simp [hn]
          · simp [hn]
      | exhausted =>
        refine ⟨id, ?_, by simp⟩
        simp only [rotateShip, hpos, hres, List.map_id]
      | fuelOut =>
        refine ⟨id, ?_, by simp⟩
        simp only [rotateShip, hpos, hres, List.map_id]

/-- C6 — `rotateShip` mutates nothing when it does not commit: it is the
identity on the fleet when the ship is unplaced, and when the search loop
exhausts its frontier without a hit. -/
theorem rotateShip_noop (pieces : List Ship) (ship : Ship) :
    (ship.position = none → rotateShip pieces ship = pieces) ∧
    (∀ pr pc : Int, ship.position = some (pr, pc) →
      rotBfs pieces ship.name ship.size ship.horizontal searchFuel
          (rotationSeeds ship pr pc) {primarySeed ship pr pc} = .exhausted →
      rotateShip pieces ship = pieces) := by
  constructor
  · intro hpos
    simp only [rotateShip, hpos]
  · intro pr pc hpos hex
    simp only [rotateShip, hpos, hex]

/-- The Destroyer placed at the top-left corner. -/
def cornerDestroyer : Ship := ⟨"Destroyer", 2, some (0, 0), "#C0D6F0", true⟩

/-- Five full-width blockers on the odd rows: every vertical two-cell
placement meets one of them, so no reoriented pose for a 2-ship exists. -/
def oddRowBlockers : List Ship :=
  [⟨"RowA", 10, some (1, 0), "#000", true⟩, ⟨"RowB", 10, some (3, 0), "#000", true⟩,
   ⟨"RowC", 10, some (5, 0), "#000", true⟩, ⟨"RowD", 10, some (7, 0), "#000", true⟩,
   ⟨"RowE", 10, some (9, 0), "#000", true⟩]

set_option maxRecDepth 100000 in
/-- Witness for C6 at concrete inputs: an unplaced ship, and the corner
Destroyer boxed in by the odd-row blockers, on which the search exhausts. -/
theorem rotateShip_noop_witness :
    ((⟨"Cruiser", 3, none, "#60A5FA", true⟩ : Ship).position = none ∧
      rotateShip [] ⟨"Cruiser", 3, none, "#60A5FA", true⟩ = []) ∧
    (cornerDestroyer.position = some (0, 0) ∧
      rotBfs (cornerDestroyer :: oddRowBlockers) "Destroyer" 2 true searchFuel
          (rotationSeeds cornerDestroyer 0 0)
          {primarySeed cornerDestroyer 0 0} = .exhausted ∧
      rotateShip (cornerDestroyer :: oddRowBlockers) cornerDestroyer =
        cornerDestroyer :: oddRowBlockers) := by
  refine ⟨⟨rfl, (rotateShip_noop [] ⟨"Cruiser", 3, none, "#60A5FA", true⟩).1 rfl⟩,
    rfl, ?_, ?_⟩
  · decide
  · exact (rotateShip_noop _ _).2 0 0 rfl (by decide)

/-! ### Consequences of a successful validation -/

theorem canPlaceShipAt_parts {pieces : List Ship} {name : String} {size : Nat}
    {r c : Int} {h : Bool} (hc : canPlaceShipAt pieces name size r c h = true) :
    ¬(r < 0 ∨ 10 ≤ r ∨ c < 0 ∨ 10 ≤ c) ∧
      ¬(h = true ∧ 10 < c + (size : Int)) ∧
      ¬((¬ h = true) ∧ 10 < r + (size : Int)) ∧
      ∀ i : Nat, i < size → ∀ ship ∈ pieces,
        ¬ overlapsShip name (r + (if h then 0 else (i : Int)))
            (c + (if h then (i : Int) else 0)) ship = true := by
  rw [canPlaceShipAt] at hc
  by_cases h1 : r < 0 ∨ 10 ≤ r ∨ c < 0 ∨ 10 ≤ c
  · rw [if_pos h1] at hc; cases hc
  rw [if_neg h1] at hc
  by_cases h2 : h = true ∧ 10 < c + (size : Int)
  · rw [if_pos h2] at hc; cases hc
  rw [if_neg h2] at hc
  by_cases h3 : (¬ h = true) ∧ 10 < r + (size : Int)
  · rw [if_pos h3] at hc; cases hc
  rw [if_neg h3] at hc
  refine ⟨h1, h2, h3, ?_⟩
  simp only [List.all_eq_true, List.mem_range] at hc
  intro i hi ship hship
  have hloop := hc i hi
  simp only [Bool.not_eq_true', List.any_eq_false] at hloop
  exact hloop ship hship

theorem canPlaceShipAt_inGrid {pieces : List Ship} {name : String} {size : Nat}
    {r c : Int} {h : Bool} (hc : canPlaceShipAt pieces name size r c h = true) :
    ∀ p ∈ placementCells size r c h, inGrid p.1 p.2 := by
  obtain ⟨h1, h2, h3, -⟩ := canPlaceShipAt_parts hc
  intro p hp
  obtain ⟨i, hi, hp1, hp2⟩ := mem_placementCells.1 hp
  rw [inGrid]
  cases h
  · have h3x : r + (size : Int) ≤ 10 := by
      by_contra hgt
      exact h3 ⟨by simp, by omega⟩
    have hp1x : p.1 = r + (i : Int) := by simpa using hp1
    have hp2x : p.2 = c := by simpa using hp2
    omega
  · have h2x : c + (size : Int) ≤ 10 := by
      by_contra hgt
      exact h2 ⟨rfl, by omega⟩
    have hp1x : p.1 = r := by simpa using hp1
    have hp2x : p.2 = c + (i : Int) := by simpa using hp2
    omega

theorem canPlaceShipAt_noOverlap {pieces : List Ship} {name : String} {size : Nat}
    {r c : Int} {h : Bool} (hc : canPlaceShipAt pieces name size r c h = true) :
    ∀ ship ∈ pieces, ship.name ≠ name →
      ∀ p ∈ placementCells size r c h, p ∉ shipCells ship := by
  intro ship hship hname p hp hcell
  obtain ⟨i, hi, hp1, hp2⟩ := mem_placementCells.1 hp
  have hover := (canPlaceShipAt_parts hc).2.2.2 i hi ship hship
  rw [overlapsShip_iff] at hover
  refine hover ⟨hname, ?_⟩
  have hpeq : p = (r + (if h then 0 else (i : Int)), c + (if h then (i : Int) else 0)) := by
    apply Prod.ext <;> simpa
  rwa [← hpeq]

theorem rotBfs_found_valid (pieces : List Ship) (name : String) (size : Nat) (h : Bool) :
    ∀ (fuel : Nat) (q : List SearchState) (v : Finset SearchState) (org : Int × Int),
      rotBfs pieces name size h fuel q v = .found org →
      canPlaceShipAt pieces name size org.1 org.2 (!h) = true := by
  intro fuel
  induction fuel with
  | zero => intro q v org hq; cases hq
  | succ fuel ih =>
    intro q v org hq
    cases q with
    | nil => cases hq
    | cons s rest =>
      simp only [rotBfs] at hq
      by_cases hcp : canPlaceShipAt pieces name size (candidateOrigin h s).1
          (candidateOrigin h s).2 (!h) = true
      · rw [if_pos hcp] at hq
        cases hq
        exact hcp
      · rw [if_neg hcp] at hq
        exact ih _ _ org hq

theorem rotBfs_step_found {pieces : List Ship} {name : String} {size : Nat}
    {h : Bool} {fuel : Nat} {s : SearchState} {rest : List SearchState}
    {v : Finset SearchState}
    (hc : canPlaceShipAt pieces name size (candidateOrigin h s).1
      (candidateOrigin h s).2 (!h) = true) :
    rotBfs pieces name size h (fuel + 1) (s :: rest) v = .found (candidateOrigin h s) := by
  simp only [rotBfs, hc, if_true]

theorem rotBfs_step_next {pieces : List Ship} {name : String} {size : Nat}
    {h : Bool} {fuel : Nat} {s : SearchState} {rest : List SearchState}
    {v : Finset SearchState}
    (hc : canPlaceShipAt pieces name size (candidateOrigin h s).1
      (candidateOrigin h s).2 (!h) = false) :
    rotBfs pieces name size h (fuel + 1) (s :: rest) v =
      rotBfs pieces name size h fuel (pushNeighbors (stepNeighbors s) rest v).1
        (pushNeighbors (stepNeighbors s) rest v).2 := by
  simp only [rotBfs, hc, Bool.false_eq_true, if_false]

/-! ### Self-revalidation and invariant preservation -/

/-- C8 — with the fleet invariant in force, re-validating a placed ship's
own current placement always succeeds: its cells are in bounds by the
invariant, and every overlap it could report is with a differently named
ship, excluded by disjointness. -/
theorem canPlaceShipAt_self (pieces : List Ship) (ship : Ship) (pr pc : Int)
    (hmem : ship ∈ pieces) (hpos : ship.position = some (pr, pc))
    (hsz : 1 ≤ ship.size) (hinv : fleetInv pieces) :
    canPlaceShipAt pieces ship.name ship.size pr pc ship.horizontal = true := by
  rw [canPlaceShipAt_correct pieces ship.name ship.size pr pc ship.horizontal hsz]
  have hcells : placementCells ship.size pr pc ship.horizontal = shipCells ship := by
    rw [shipCells, hpos]
  constructor
  · rw [hcells]
    exact hinv.1 ship hmem
  · intro other hother hname p hp hcell
    have hsymm : Symmetric cellsDisjoint := by
      intro a b hab p hpb hpa
      exact hab p hpa hpb
    have hdisj : cellsDisjoint ship other :=
      (hinv.2.forall hsymm) hmem hother (fun heq => hname (by rw [← heq]))
    rw [hcells] at hp
    exact hdisj p hp hcell

/-- The Carrier placed at the top-left corner. -/
def placedCarrier : Ship := ⟨"Carrier", 5, some (0, 0), "#1E40AF", true⟩

/-- Witness for C8 at a concrete input: the placed Carrier re-validating its
own placement in a singleton fleet. -/
theorem canPlaceShipAt_self_witness :
    placedCarrier ∈ [placedCarrier] ∧ placedCarrier.position = some (0, 0) ∧
      1 ≤ placedCarrier.size ∧ fleetInv [placedCarrier] ∧
      canPlaceShipAt [placedCarrier] placedCarrier.name placedCarrier.size 0 0
        placedCarrier.horizontal = true :=
  ⟨by decide, rfl, by decide, by decide,
    canPlaceShipAt_self [placedCarrier] placedCarrier 0 0 (by decide) rfl (by decide)
      (by decide)⟩

/-- Committing a validated pose for the ships named `name` preserves the
fleet invariant: the rewritten slots take exactly the validated cells, all
other slots are untouched. -/
theorem fleetInv_update (pieces : List Ship) (name : String) (size : Nat)
    (tr lc : Int) (ho : Bool) (hinv : fleetInv pieces) (hnames : namesDistinct pieces)
    (hc : canPlaceShipAt pieces name size tr lc ho = true) (f : Ship → Ship)
    (hfOther : ∀ s : Ship, s.name ≠ name → f s = s)
    (hfName : ∀ s ∈ pieces, s.name = name →
      shipCells (f s) = placementCells size tr lc ho) :
    fleetInv (pieces.map f) := by
  constructor
  · intro s0 hs0
    obtain ⟨s, hs, rfl⟩ := List.mem_map.1 hs0
    by_cases hn : s.name = name
    · intro p hp
      rw [hfName s hs hn] at hp
      exact canPlaceShipAt_inGrid hc p hp
    · rw [hfOther s hn]
      exact hinv.1 s hs
  · rw [List.pairwise_map]
    have hcomb := (hinv.2).and hnames
    refine hcomb.imp_of_mem ?_
    intro a b ha hb hab
    obtain ⟨hdisj, hne⟩ := hab
    by_cases hna : a.name = name <;> by_cases hnb : b.name = name
    · exact absurd (hna.trans hnb.symm) hne
    · rw [hfOther b hnb]
      intro p hpa hpb
      rw [hfName a ha hna] at hpa
      exact canPlaceShipAt_noOverlap hc b hb (fun hh => hnb hh) p hpa hpb
    · rw [hfOther a hna]
      intro p hpa hpb
      rw [hfName b hb hnb] at hpb
      exact canPlaceShipAt_noOverlap hc a ha (fun hh => hna hh) p hpb hpa
    · rw [hfOther a hna, hfOther b hnb]
      exact hdisj

/-- C4 — both mutators preserve the fleet invariant, on fleets whose slot
names are distinct and, for `placeShip`, whose descriptor matches the named
ship's stored size and orientation (as every call site guarantees). -/
theorem mutators_preserve_fleetInv (pieces : List Ship) (name : String) (size : Nat)
    (r c : Int) (h : Bool) (ship : Ship)
    (hinv : fleetInv pieces) (hnames : namesDistinct pieces) :
    ((∀ s ∈ pieces, s.name = name → s.size = size ∧ s.horizontal = h) →
      fleetInv (placeShip pieces name size r c h).2) ∧
    (ship ∈ pieces → fleetInv (rotateShip pieces ship)) := by
  constructor
  · intro hcons
    rw [placeShip]
    by_cases hc : canPlaceShipAt pieces name size r c h = true
    · rw [if_pos hc]
      refine fleetInv_update pieces name size r c h hinv hnames hc _ ?_ ?_
      · intro s hn
        rw [if_neg hn]
      · intro s hs hn
        rw [if_pos hn]
        obtain ⟨hsz, hh⟩ := hcons s hs hn
        simp [shipCells, hsz, hh]
    · rw [if_neg hc]
      exact hinv
  · intro hmem
    cases hpos : ship.position with
    | none =>
      simp only [rotateShip, hpos]
      exact hinv
    | some q =>
      obtain ⟨pr, pc⟩ := q
      cases hres : rotBfs pieces ship.name ship.size ship.horizontal searchFuel
          (rotationSeeds ship pr pc) {primarySeed ship pr pc} with
      | found org =>
        obtain ⟨tr, lc⟩ := org
        have hc := rotBfs_found_valid pieces ship.name ship.size ship.horizontal _ _ _ _ hres
        simp only [rotateShip, hpos, hres]
        have huniq : ∀ s ∈ pieces, s.name = ship.name → s = ship := by
          intro s hs heq
          by_contra hne
          have hsymm : Symmetric (fun a b : Ship => a.name ≠ b.name) := by
            intro a b hab hba
            exact hab hba.symm
          exact (hnames.forall hsymm) hs hmem hne heq
        refine fleetInv_update pieces ship.name ship.size tr lc (!ship.horizontal)
          hinv hnames hc _ ?_ ?_
        · intro s hn
          rw [if_neg hn]
        · intro s hs hn
          rw [if_pos hn, huniq s hs hn]
          simp [shipCells]
      | exhausted =>
        simp only [rotateShip, hpos, hres]
        exact hinv
      | fuelOut =>
        simp only [rotateShip, hpos, hres]
        exact hinv

/-- Witness for C4 at a concrete input: the singleton Carrier fleet, a
Destroyer drop, and a rotate of the Carrier itself. -/
theorem mutators_preserve_fleetInv_witness :
    fleetInv [placedCarrier] ∧ namesDistinct [placedCarrier] ∧
      fleetInv (placeShip [placedCarrier] "Destroyer" 2 1 0 true).2 ∧
      fleetInv (rotateShip [placedCarrier] placedCarrier) := by
  have hm := mutators_preserve_fleetInv [placedCarrier] "Destroyer" 2 1 0 true
    placedCarrier (by decide) (by decide)
  exact ⟨by decide, by decide, hm.1 (by decide), hm.2 (by decide)⟩

/-- Witness for C3 at a concrete input: the Carrier at the origin in an empty
fleet. -/
theorem canPlaceShipAt_correct_witness :
    1 ≤ 5 ∧
      (canPlaceShipAt [] "Carrier" 5 0 0 true = true ↔
        ((∀ p ∈ placementCells 5 0 0 true, inGrid p.1 p.2) ∧
          ∀ ship ∈ ([] : List Ship), ship.name ≠ "Carrier" →
            ∀ p ∈ placementCells 5 0 0 true, p ∉ shipCells ship)) :=
  ⟨by decide, canPlaceShipAt_correct [] "Carrier" 5 0 0 true (by decide)⟩

/-! ### The concrete rotation scenario -/

/-- C7 — a 3-cell horizontal ship at the origin, with column 1 free on rows
0–2 apart from the ship itself: rotating commits the vertical pose with
origin `(0, 1)`.  The search tries the in-place pivot first (origin
`(-1, 1)`, off the board), then the cell below the pivot, which succeeds. -/
theorem rotateShip_three_at_origin (pieces : List Ship) (ship : Ship)
    (hsz : ship.size = 3) (hh : ship.horizontal = true)
    (hpos : ship.position = some (0, 0))
    (hfree : ∀ s ∈ pieces, s.name ≠ ship.name →
      ∀ r : Int, 0 ≤ r → r < 3 → (r, 1) ∉ shipCells s) :
    rotateShip pieces ship = pieces.map fun s =>
      if s.name = ship.name then
        { s with horizontal := !s.horizontal, position := some (0, 1) }
      else s := by
  have hseeds : rotationSeeds ship 0 0 = [((0:ℤ), (1:ℤ), (1:ℤ))] := by
    simp only [rotationSeeds, primarySeed, secondSeed, pivotOffset, hsz, hh]
    decide
  have hprim : primarySeed ship 0 0 = ((0:ℤ), (1:ℤ), (1:ℤ)) := by
    simp only [primarySeed, pivotOffset, hsz, hh]
    decide
  have hfail : canPlaceShipAt pieces ship.name 3
      (candidateOrigin true ((0:ℤ), (1:ℤ), (1:ℤ))).1
      (candidateOrigin true ((0:ℤ), (1:ℤ), (1:ℤ))).2 (!true) = false := by
    show canPlaceShipAt pieces ship.name 3 (-1) 1 false = false
    rw [canPlaceShipAt, if_pos (Or.inl (by norm_num))]
  have hvalid : canPlaceShipAt pieces ship.name 3
      (candidateOrigin true ((1:ℤ), (1:ℤ), (1:ℤ))).1
      (candidateOrigin true ((1:ℤ), (1:ℤ), (1:ℤ))).2 (!true) = true := by
    show canPlaceShipAt pieces ship.name 3 0 1 false = true
    rw [canPlaceShipAt_correct pieces ship.name 3 0 1 false (by norm_num)]
    constructor
    · decide
    · intro other hother hname p hp
      obtain ⟨i, hi, hp1, hp2⟩ := mem_placementCells_v.1 hp
      have hp' : p = ((i : Int), 1) := by
        apply Prod.ext
        · simpa using hp1
        · simpa using hp2
      rw [hp']
      exact hfree other hother hname (i : Int) (by omega) (by omega)
  have hpush : (pushNeighbors (stepNeighbors ((0:ℤ), (1:ℤ), (1:ℤ))) []
      {((0:ℤ), (1:ℤ), (1:ℤ))}).1 =
      [((1:ℤ), (1:ℤ), (1:ℤ)), ((0:ℤ), (0:ℤ), (1:ℤ)), ((0:ℤ), (2:ℤ), (1:ℤ))] := by
    decide
  have hco2 : candidateOrigin true ((1:ℤ), (1:ℤ), (1:ℤ)) = ((0:ℤ), (1:ℤ)) := by decide
  simp only [rotateShip, hpos, hseeds, hprim, hsz, hh]
  rw [show searchFuel = 1999 + 1 from rfl]
  rw [rotBfs_step_next hfail, hpush]
  rw [show (1999 : Nat) = 1998 + 1 from rfl]
  rw [rotBfs_step_found hvalid, hco2]

/-- The Cruiser placed horizontally at the origin. -/
def placedCruiser : Ship := ⟨"Cruiser", 3, some (0, 0), "#60A5FA", true⟩

/-- Witness for C7 at a concrete input: the Cruiser alone on the board. -/
theorem rotateShip_three_at_origin_witness :
    placedCruiser.size = 3 ∧ placedCruiser.horizontal = true ∧
      placedCruiser.position = some (0, 0) ∧
      rotateShip [placedCruiser] placedCruiser = [placedCruiser].map fun s =>
        if s.name = placedCruiser.name then
          { s with horizontal := !s.horizontal, position := some (0, 1) }
        else s := by
  refine ⟨rfl, rfl, rfl, ?_⟩
  refine rotateShip_three_at_origin [placedCruiser] placedCruiser rfl rfl rfl ?_
  intro s hs hn
  rw [List.mem_singleton] at hs
  subst hs
  exact absurd rfl hn

/-! ### Frontier bookkeeping: what one expansion round does -/

theorem pushNeighbors_spec :
    ∀ (ns q : List SearchState) (v : Finset SearchState),
      ∃ F : List SearchState,
        pushNeighbors ns q v = (q ++ F, v ∪ F.toFinset) ∧ F.Nodup ∧
        (∀ f ∈ F, f ∈ ns ∧ inGrid f.1 f.2.1 ∧ f ∉ v) ∧
        (∀ n ∈ ns, inGrid n.1 n.2.1 → n ∈ v ∪ F.toFinset) := by
  intro ns
  induction ns with
  | nil =>
    intro q v
    refine ⟨[], ?_, by simp, by simp, by simp⟩
    simp [pushNeighbors]
  | cons n ns ih =>
    intro q v
    rw [pushNeighbors]
    by_cases hn : inGrid n.1 n.2.1 ∧ n ∉ v
    · rw [if_pos hn]
      obtain ⟨F, heq, hnd, hmem, hcov⟩ := ih (q ++ [n]) (insert n v)
      have hset : insert n v ∪ F.toFinset = v ∪ (n :: F).toFinset := by
        rw [List.toFinset_cons, Finset.union_insert, Finset.insert_union]
      refine ⟨n :: F, ?_, ?_, ?_, ?_⟩
      · rw [heq]
        apply Prod.ext
        · simp
        · exact hset
      · rw [List.nodup_cons]
        refine ⟨fun hnF => ?_, hnd⟩
        exact (hmem n hnF).2.2 (Finset.mem_insert_self n v)
      · intro f hf
        rcases List.mem_cons.1 hf with rfl | hf1
        · exact ⟨List.mem_cons_self _ _, hn.1, hn.2⟩
        · obtain ⟨ha, hb, hc⟩ := hmem f hf1
          exact ⟨List.mem_cons_of_mem n ha, hb,
            fun hv => hc (Finset.mem_insert_of_mem hv)⟩
      · intro m hm hgrid
        rcases List.mem_cons.1 hm with rfl | hm1
        · exact Finset.mem_union_right _ (List.mem_toFinset.2 (List.mem_cons_self _ _))
        · rw [← hset]
          exact hcov m hm1 hgrid
    · rw [if_neg hn]
      obtain ⟨F, heq, hnd, hmem, hcov⟩ := ih q v
      refine ⟨F, heq, hnd, ?_, ?_⟩
      · intro f hf
        obtain ⟨ha, hb, hc⟩ := hmem f hf
        exact ⟨List.mem_cons_of_mem n ha, hb, hc⟩
      · intro m hm hgrid
        rcases List.mem_cons.1 hm with rfl | hm1
        · rcases not_and_or.1 hn with hbad | hbad
          · exact absurd hgrid hbad
          · rw [not_not] at hbad
            exact Finset.mem_union_left _ hbad
        · exact hcov m hm1 hgrid

theorem rotBfsTrace_step_found {pieces : List Ship} {name : String} {size : Nat}
    {h : Bool} {fuel : Nat} {x : SearchState} {rest : List SearchState}
    {v : Finset SearchState}
    (hc : canPlaceShipAt pieces name size (candidateOrigin h x).1
      (candidateOrigin h x).2 (!h) = true) :
    rotBfsTrace pieces name size h (fuel + 1) (x :: rest) v =
      (.found (candidateOrigin h x), [x]) := by
  simp only [rotBfsTrace, hc, if_true]

theorem rotBfsTrace_step_next {pieces : List Ship} {name : String} {size : Nat}
    {h : Bool} {fuel : Nat} {x : SearchState} {rest : List SearchState}
    {v : Finset SearchState}
    (hc : canPlaceShipAt pieces name size (candidateOrigin h x).1
      (candidateOrigin h x).2 (!h) = false) :
    rotBfsTrace pieces name size h (fuel + 1) (x :: rest) v =
      ((rotBfsTrace pieces name size h fuel
          (pushNeighbors (stepNeighbors x) rest v).1
          (pushNeighbors (stepNeighbors x) rest v).2).1,
        x :: (rotBfsTrace pieces name size h fuel
          (pushNeighbors (stepNeighbors x) rest v).1
          (pushNeighbors (stepNeighbors x) rest v).2).2) := by
  simp only [rotBfsTrace, hc, Bool.false_eq_true, if_false]

theorem count_eq_one_of_nodup_mem {l : List SearchState} (hnd : l.Nodup)
    {a : SearchState} (ha : a ∈ l) : l.count a = 1 := by
  induction l with
  | nil => cases ha
  | cons b t ih =>
    rw [List.nodup_cons] at hnd
    rw [List.count_cons]
    rcases List.mem_cons.1 ha with rfl | hat
    · rw [List.count_eq_zero.2 hnd.1]
      simp
    · rw [ih hnd.2 hat]
      have hne : ¬ (b == a) = true := by
        intro hab
        rw [beq_iff_eq] at hab
        subst hab
        exact hnd.1 hat
      rw [if_neg hne]

/-- Each state is dequeued at most "number of copies in the initial queue,
plus one if it is not yet marked visited" times: the loop marks a state when
it enqueues it, and only enqueues unmarked states. -/
theorem rotBfsTrace_count_le (pieces : List Ship) (name : String) (size : Nat)
    (h : Bool) (s : SearchState) :
    ∀ (fuel : Nat) (q : List SearchState) (v : Finset SearchState),
      ((rotBfsTrace pieces name size h fuel q v).2).count s ≤
        q.count s + (if s ∈ v then 0 else 1) := by
  intro fuel
  induction fuel with
  | zero =>
    intro q v
    simp [rotBfsTrace]
  | succ fuel ih =>
    intro q v
    cases q with
    | nil => simp [rotBfsTrace]
    | cons x rest =>
      cases hcb : canPlaceShipAt pieces name size (candidateOrigin h x).1
          (candidateOrigin h x).2 (!h) with
      | true =>
        rw [rotBfsTrace_step_found hcb]
        simp only [List.count_cons, List.count_nil]
        split_ifs <;> omega
      | false =>
        rw [rotBfsTrace_step_next hcb]
        obtain ⟨F, heq, hnd, hmemF, hcov⟩ := pushNeighbors_spec (stepNeighbors x) rest v
        have h1 : (pushNeighbors (stepNeighbors x) rest v).1 = rest ++ F := by rw [heq]
        have h2 : (pushNeighbors (stepNeighbors x) rest v).2 = v ∪ F.toFinset := by rw [heq]
        rw [h1, h2]
        dsimp only
        have hthis := ih (rest ++ F) (v ∪ F.toFinset)
        rw [List.count_append] at hthis
        by_cases hsF : s ∈ F
        · have hnv : s ∉ v := (hmemF s hsF).2.2
          have hmu : s ∈ v ∪ F.toFinset :=
            Finset.mem_union_right _ (List.mem_toFinset.2 hsF)
          rw [count_eq_one_of_nodup_mem hnd hsF, if_pos hmu] at hthis
          rw [if_neg hnv]
          simp only [List.count_cons]
          split_ifs <;> omega
        · have hzero : F.count s = 0 := List.count_eq_zero.2 hsF
          have hiff : s ∈ v ∪ F.toFinset ↔ s ∈ v := by
            rw [Finset.mem_union, List.mem_toFinset]
            simp [hsF]
          rw [hzero] at hthis
          by_cases hsv : s ∈ v
          · rw [if_pos (hiff.2 hsv)] at hthis
            rw [if_pos hsv]
            simp only [List.count_cons]
            split_ifs <;> omega
          · rw [if_neg (fun hh => hsv (hiff.1 hh))] at hthis
            rw [if_neg hsv]
            simp only [List.count_cons]
            split_ifs <;> omega

/-! ### Termination: the fuel bound is never reached -/

/-- All search states over the board cells carrying a fixed offset. -/
def boardStates (o : Int) : Finset SearchState :=
  Finset.Icc (0 : Int) 9 ×ˢ Finset.Icc (0 : Int) 9 ×ˢ ({o} : Finset Int)

theorem mem_boardStates {o : Int} {s : SearchState} :
    s ∈ boardStates o ↔ inGrid s.1 s.2.1 ∧ s.2.2 = o := by
  rw [boardStates, inGrid]
  simp only [Finset.mem_product, Finset.mem_Icc, Finset.mem_singleton]
  omega

theorem boardStates_card (o : Int) : (boardStates o).card = 100 := by
  rw [boardStates, Finset.card_product, Finset.card_product]
  have h9 : (Finset.Icc (0 : Int) 9).card = 10 := by decide
  rw [h9, Finset.card_singleton]

theorem searchBox_card_le (o1 o2 : Int) (sA sB : SearchState) :
    (insert sA (insert sB (boardStates o1 ∪ boardStates o2))).card ≤ 202 := by
  have h1 := Finset.card_insert_le sA (insert sB (boardStates o1 ∪ boardStates o2))
  have h2 := Finset.card_insert_le sB (boardStates o1 ∪ boardStates o2)
  have h3 := Finset.card_union_le (boardStates o1) (boardStates o2)
  rw [boardStates_card, boardStates_card] at h3
  omega

theorem stepNeighbors_offset {x t : SearchState} (ht : t ∈ stepNeighbors x) :
    t.2.2 = x.2.2 := by
  rw [stepNeighbors] at ht
  simp only [List.mem_cons, List.not_mem_nil, or_false] at ht
  rcases ht with rfl | rfl | rfl | rfl <;> rfl

theorem rotBfs_ne_fuelOut_aux (pieces : List Ship) (name : String) (size : Nat)
    (h : Bool) (o1 o2 : Int) (sA sB : SearchState) :
    ∀ (fuel : Nat) (q : List SearchState) (v : Finset SearchState),
      v ⊆ insert sA (insert sB (boardStates o1 ∪ boardStates o2)) →
      (∀ x ∈ q, x.2.2 = o1 ∨ x.2.2 = o2) →
      q.length + 5 * (202 - v.card) < fuel →
      rotBfs pieces name size h fuel q v ≠ .fuelOut := by
  intro fuel
  induction fuel with
  | zero =>
    intro q v _ _ hm
    omega
  | succ fuel ih =>
    intro q v hv hq hm
    cases q with
    | nil =>
      intro hcontra
      simp only [rotBfs] at hcontra
      cases hcontra
    | cons x rest =>
      cases hcb : canPlaceShipAt pieces name size (candidateOrigin h x).1
          (candidateOrigin h x).2 (!h) with
      | true =>
        rw [rotBfs_step_found hcb]
        intro hcontra
        cases hcontra
      | false =>
        rw [rotBfs_step_next hcb]
        obtain ⟨F, heq, hnd, hmemF, hcov⟩ := pushNeighbors_spec (stepNeighbors x) rest v
        have h1 : (pushNeighbors (stepNeighbors x) rest v).1 = rest ++ F := by rw [heq]
        have h2 : (pushNeighbors (stepNeighbors x) rest v).2 = v ∪ F.toFinset := by rw [heq]
        rw [h1, h2]
        have hxoff := hq x (List.mem_cons_self x rest)
        have hFbox : ∀ f ∈ F, f ∈ boardStates o1 ∪ boardStates o2 := by
          intro f hf
          obtain ⟨hfn, hfg, -⟩ := hmemF f hf
          have hfo : f.2.2 = x.2.2 := stepNeighbors_offset hfn
          rw [Finset.mem_union, mem_boardStates, mem_boardStates]
          rcases hxoff with hx | hx
          · exact Or.inl ⟨hfg, hfo.trans hx⟩
          · exact Or.inr ⟨hfg, hfo.trans hx⟩
        have hsubset : v ∪ F.toFinset ⊆
            insert sA (insert sB (boardStates o1 ∪ boardStates o2)) := by
          intro y hy
          rcases Finset.mem_union.1 hy with hy | hy
          · exact hv hy
          · exact Finset.mem_insert_of_mem (Finset.mem_insert_of_mem
              (hFbox y (List.mem_toFinset.1 hy)))
        apply ih (rest ++ F) (v ∪ F.toFinset) hsubset
        · intro y hy
          rcases List.mem_append.1 hy with hy | hy
          · exact hq y (List.mem_cons_of_mem _ hy)
          · have hyo : y.2.2 = x.2.2 := stepNeighbors_offset (hmemF y hy).1
            rcases hxoff with hx | hx
            · exact Or.inl (hyo.trans hx)
            · exact Or.inr (hyo.trans hx)
        · have hdisj : Disjoint v F.toFinset := by
            rw [Finset.disjoint_right]
            intro a haF hav
            exact (hmemF a (List.mem_toFinset.1 haF)).2.2 hav
          have hcard : (v ∪ F.toFinset).card = v.card + F.length := by
            rw [Finset.card_union_of_disjoint hdisj, List.toFinset_card_of_nodup hnd]
          have hbound : (v ∪ F.toFinset).card ≤ 202 :=
            le_trans (Finset.card_le_card hsubset) (searchBox_card_le o1 o2 sA sB)
          rw [List.length_append, hcard]
          rw [List.length_cons] at hm
          omega

theorem primarySeed_offset (ship : Ship) (pr pc : Int) :
    (primarySeed ship pr pc).2.2 = pivotOffset ship.size := rfl

theorem secondSeed_offset (ship : Ship) (pr pc : Int) :
    (secondSeed ship pr pc).2.2 = pivotOffset ship.size + 1 := rfl

/-- The search loop never exhausts its fuel: each expansion round either
shortens the queue or marks a fresh state of the bounded state space. -/
theorem rotBfs_no_fuelOut (pieces : List Ship) (ship : Ship) (pr pc : Int) :
    rotBfs pieces ship.name ship.size ship.horizontal searchFuel
      (rotationSeeds ship pr pc) {primarySeed ship pr pc} ≠ .fuelOut := by
  apply rotBfs_ne_fuelOut_aux pieces ship.name ship.size ship.horizontal
    (pivotOffset ship.size) (pivotOffset ship.size + 1)
    (primarySeed ship pr pc) (secondSeed ship pr pc)
  · intro y hy
    rw [Finset.mem_singleton] at hy
    rw [hy]
    exact Finset.mem_insert_self _ _
  · intro y hy
    rw [rotationSeeds] at hy
    by_cases hpar : ship.size % 2 = 0
    · rw [if_pos hpar] at hy
      simp only [List.mem_cons, List.not_mem_nil, or_false] at hy
      rcases hy with rfl | rfl
      · exact Or.inl (primarySeed_offset ship pr pc)
      · exact Or.inr (secondSeed_offset ship pr pc)
    · rw [if_neg hpar] at hy
      simp only [List.mem_cons, List.not_mem_nil, or_false] at hy
      rw [hy]
      exact Or.inl (primarySeed_offset ship pr pc)
  · rw [rotationSeeds, Finset.card_singleton, searchFuel]
    by_cases hpar : ship.size % 2 = 0
    · rw [if_pos hpar]
      norm_num
    · rw [if_neg hpar]
      norm_num

/-! ### Completeness: an exhausted search leaves no valid pose behind -/

/-- A frontier entry whose derived origin the validator accepts. -/
def validState (pieces : List Ship) (name : String) (size : Nat) (h : Bool)
    (s : SearchState) : Prop :=
  canPlaceShipAt pieces name size (candidateOrigin h s).1
    (candidateOrigin h s).2 (!h) = true

/-- If the loop exhausts its queue, the visited set extends to a set closed
under in-grid expansion all of whose members fail validation. -/
theorem rotBfs_exhausted_closed (pieces : List Ship) (name : String) (size : Nat)
    (h : Bool) :
    ∀ (fuel : Nat) (q : List SearchState) (v : Finset SearchState),
      rotBfs pieces name size h fuel q v = .exhausted →
      (∀ s ∈ v, s ∈ q ∨ ((∀ t ∈ stepNeighbors s, inGrid t.1 t.2.1 → t ∈ v) ∧
        ¬ validState pieces name size h s)) →
      ∃ w : Finset SearchState, v ⊆ w ∧
        ∀ s ∈ w, (∀ t ∈ stepNeighbors s, inGrid t.1 t.2.1 → t ∈ w) ∧
          ¬ validState pieces name size h s := by
  intro fuel
  induction fuel with
  | zero =>
    intro q v hres
    simp only [rotBfs] at hres
    cases hres
  | succ fuel ih =>
    intro q v hres hinv
    cases q with
    | nil =>
      refine ⟨v, Finset.Subset.refl v, ?_⟩
      intro s hs
      rcases hinv s hs with hq | hgood
      · cases hq
      · exact hgood
    | cons x rest =>
      cases hcb : canPlaceShipAt pieces name size (candidateOrigin h x).1
          (candidateOrigin h x).2 (!h) with
      | true =>
        rw [rotBfs_step_found hcb] at hres
        cases hres
      | false =>
        rw [rotBfs_step_next hcb] at hres
        obtain ⟨F, heq, hnd, hmemF, hcov⟩ := pushNeighbors_spec (stepNeighbors x) rest v
        have h1 : (pushNeighbors (stepNeighbors x) rest v).1 = rest ++ F := by rw [heq]
        have h2 : (pushNeighbors (stepNeighbors x) rest v).2 = v ∪ F.toFinset := by rw [heq]
        rw [h1, h2] at hres
        have hinv2 : ∀ s ∈ v ∪ F.toFinset, s ∈ rest ++ F ∨
            ((∀ t ∈ stepNeighbors s, inGrid t.1 t.2.1 → t ∈ v ∪ F.toFinset) ∧
              ¬ validState pieces name size h s) := by
          intro s hs
          rcases Finset.mem_union.1 hs with hsv | hsF
          · rcases hinv s hsv with hq | ⟨hcl, hnv⟩
            · rcases List.mem_cons.1 hq with rfl | hrest
              · right
                constructor
                · intro t ht htg
                  exact hcov t ht htg
                · rw [validState, hcb]
                  simp
              · left
                exact List.mem_append_left _ hrest
            · right
              exact ⟨fun t ht htg => Finset.mem_union_left _ (hcl t ht htg), hnv⟩
          · left
            exact List.mem_append_right _ (List.mem_toFinset.1 hsF)
        obtain ⟨w, hvw, hw⟩ := ih (rest ++ F) (v ∪ F.toFinset) hres hinv2
        exact ⟨w, fun y hy => hvw (Finset.mem_union_left _ hy), hw⟩

/-- A set of states closed under in-grid neighbor expansion that contains
one in-grid state of some offset contains every in-grid state of that
offset: the board is grid-connected. -/
theorem closed_flood (w : Finset SearchState)
    (hcl : ∀ s ∈ w, ∀ t ∈ stepNeighbors s, inGrid t.1 t.2.1 → t ∈ w)
    (r0 c0 o : Int) (hmem : (r0, c0, o) ∈ w) (h0 : inGrid r0 c0) :
    ∀ r c : Int, inGrid r c → (r, c, o) ∈ w := by
  have key : ∀ n : Nat, ∀ r c : Int, inGrid r c →
      (r - r0).natAbs + (c - c0).natAbs = n → (r, c, o) ∈ w := by
    intro n
    induction n with
    | zero =>
      intro r c hrc hd
      have hr : r = r0 := by omega
      have hc : c = c0 := by omega
      rw [hr, hc]
      exact hmem
    | succ n ih =>
      intro r c hrc hd
      rw [inGrid] at hrc h0
      rcases lt_trichotomy r r0 with hlt | heq | hgt
      · have hp : (r + 1, c, o) ∈ w := by
          apply ih
          · rw [inGrid]; omega
          · omega
        refine hcl _ hp (r, c, o) ?_ (by show inGrid r c; rw [inGrid]; omega)
        rw [stepNeighbors, show r + 1 - 1 = r from by ring]
        exact List.mem_cons_self _ _
      · rcases lt_trichotomy c c0 with hclt | hceq | hcgt
        · have hp : (r, c + 1, o) ∈ w := by
            apply ih
            · rw [inGrid]; omega
            · omega
          refine hcl _ hp (r, c, o) ?_ (by show inGrid r c; rw [inGrid]; omega)
          rw [stepNeighbors, show c + 1 - 1 = c from by ring]
          simp
        · exfalso
          omega
        · have hp : (r, c - 1, o) ∈ w := by
            apply ih
            · rw [inGrid]; omega
            · omega
          refine hcl _ hp (r, c, o) ?_ (by show inGrid r c; rw [inGrid]; omega)
          rw [stepNeighbors, show c - 1 + 1 = c from by ring]
          simp
      · have hp : (r - 1, c, o) ∈ w := by
          apply ih
          · rw [inGrid]; omega
          · omega
        refine hcl _ hp (r, c, o) ?_ (by show inGrid r c; rw [inGrid]; omega)
        rw [stepNeighbors, show r - 1 + 1 = r from by ring]
        simp
  intro r c hrc
  exact key ((r - r0).natAbs + (c - c0).natAbs) r c hrc rfl

theorem pivotOffset_bounds (size : Nat) (hsz : 1 ≤ size) :
    0 ≤ pivotOffset size ∧ pivotOffset size ≤ (size : Int) - 1 := by
  rw [pivotOffset, Int.fdiv_eq_ediv _ (by norm_num)]
  omega

/-- The primary seed sits on one of the ship's own occupied cells. -/
theorem primarySeed_mem_cells {ship : Ship} {pr pc : Int}
    (hpos : ship.position = some (pr, pc)) (hsz : 1 ≤ ship.size) :
    ((primarySeed ship pr pc).1, (primarySeed ship pr pc).2.1) ∈ shipCells ship := by
  obtain ⟨hoff0, hoff1⟩ := pivotOffset_bounds ship.size hsz
  rw [shipCells, hpos]
  cases hh : ship.horizontal
  · rw [mem_placementCells_v]
    refine ⟨(pivotOffset ship.size).toNat, by omega, ?_, ?_⟩
    · show (primarySeed ship pr pc).1 = pr + (((pivotOffset ship.size).toNat : Nat) : Int)
      simp only [primarySeed, hh, Bool.false_eq_true, if_false]
      omega
    · show (primarySeed ship pr pc).2.1 = pc
      simp only [primarySeed, hh, Bool.false_eq_true, if_false]
      ring
  · rw [mem_placementCells_h]
    refine ⟨(pivotOffset ship.size).toNat, by omega, ?_, ?_⟩
    · show (primarySeed ship pr pc).1 = pr
      simp only [primarySeed, hh, if_true]
      ring
    · show (primarySeed ship pr pc).2.1 = pc + (((pivotOffset ship.size).toNat : Nat) : Int)
      simp only [primarySeed, hh, if_true]
      omega

/-- Completeness of the search: when some legal reoriented pose exists at
all, the loop terminates on a `found` outcome whose pose the validator
accepts. -/
theorem rotBfs_complete (pieces : List Ship) (ship : Ship) (pr pc : Int)
    (hpos : ship.position = some (pr, pc)) (hsz : 1 ≤ ship.size)
    (hin : placedInBounds ship)
    (hval : ∃ tr lc : Int,
      canPlaceShipAt pieces ship.name ship.size tr lc (!ship.horizontal) = true) :
    ∃ tr lc : Int,
      rotBfs pieces ship.name ship.size ship.horizontal searchFuel
        (rotationSeeds ship pr pc) {primarySeed ship pr pc} = .found (tr, lc) ∧
      canPlaceShipAt pieces ship.name ship.size tr lc (!ship.horizontal) = true := by
  cases hres : rotBfs pieces ship.name ship.size ship.horizontal searchFuel
      (rotationSeeds ship pr pc) {primarySeed ship pr pc} with
  | found org =>
    obtain ⟨tr, lc⟩ := org
    refine ⟨tr, lc, rfl, ?_⟩
    exact rotBfs_found_valid pieces ship.name ship.size ship.horizontal _ _ _ _ hres
  | fuelOut => exact absurd hres (rotBfs_no_fuelOut pieces ship pr pc)
  | exhausted =>
    exfalso
    obtain ⟨tr, lc, hv⟩ := hval
    obtain ⟨hoff0, hoff1⟩ := pivotOffset_bounds ship.size hsz
    have hinv0 : ∀ s ∈ ({primarySeed ship pr pc} : Finset SearchState),
        s ∈ rotationSeeds ship pr pc ∨
          ((∀ t ∈ stepNeighbors s, inGrid t.1 t.2.1 → t ∈
            ({primarySeed ship pr pc} : Finset SearchState)) ∧
            ¬ validState pieces ship.name ship.size ship.horizontal s) := by
      intro s hs
      rw [Finset.mem_singleton] at hs
      rw [hs, rotationSeeds]
      left
      by_cases hpar : ship.size % 2 = 0
      · rw [if_pos hpar]
        exact List.mem_cons_self _ _
      · rw [if_neg hpar]
        exact List.mem_cons_self _ _
    obtain ⟨w, hvw, hw⟩ := rotBfs_exhausted_closed pieces ship.name ship.size
      ship.horizontal searchFuel (rotationSeeds ship pr pc)
      {primarySeed ship pr pc} hres hinv0
    have hseedw : primarySeed ship pr pc ∈ w := hvw (Finset.mem_singleton_self _)
    have hseedgrid : inGrid (primarySeed ship pr pc).1 (primarySeed ship pr pc).2.1 :=
      hin _ (primarySeed_mem_cells hpos hsz)
    have hflood := closed_flood w (fun s hs => (hw s hs).1)
      (primarySeed ship pr pc).1 (primarySeed ship pr pc).2.1 (pivotOffset ship.size)
      hseedw hseedgrid
    cases hhor : ship.horizontal with
    | true =>
      rw [hhor] at hv
      have hcells := canPlaceShipAt_inGrid hv
      have hpivotmem : ((tr + pivotOffset ship.size), lc) ∈
          placementCells ship.size tr lc false := by
        rw [mem_placementCells_v]
        exact ⟨(pivotOffset ship.size).toNat, by omega, by omega, rfl⟩
      have hpg := hcells _ hpivotmem
      have hsw : ((tr + pivotOffset ship.size), lc, pivotOffset ship.size) ∈ w :=
        hflood _ _ hpg
      have hco : candidateOrigin true
          ((tr + pivotOffset ship.size), lc, pivotOffset ship.size) = (tr, lc) := by
        simp [candidateOrigin]
      have hval2 : validState pieces ship.name ship.size ship.horizontal
          ((tr + pivotOffset ship.size), lc, pivotOffset ship.size) := by
        rw [validState, hhor, hco]
        exact hv
      exact (hw _ hsw).2 hval2
    | false =>
      rw [hhor] at hv
      have hcells := canPlaceShipAt_inGrid hv
      have hpivotmem : (tr, (lc + pivotOffset ship.size)) ∈
          placementCells ship.size tr lc true := by
        rw [mem_placementCells_h]
        exact ⟨(pivotOffset ship.size).toNat, by omega, rfl, by omega⟩
      have hpg := hcells _ hpivotmem
      have hsw : (tr, (lc + pivotOffset ship.size), pivotOffset ship.size) ∈ w :=
        hflood _ _ hpg
      have hco : candidateOrigin false
          (tr, (lc + pivotOffset ship.size), pivotOffset ship.size) = (tr, lc) := by
        simp [candidateOrigin]
      have hval2 : validState pieces ship.name ship.size ship.horizontal
          (tr, (lc + pivotOffset ship.size), pivotOffset ship.size) := by
        rw [validState, hhor, hco]
        exact hv
      exact (hw _ hsw).2 hval2

/-! ### The rotation termination claim -/

theorem seeds_ne (ship : Ship) (pr pc : Int) :
    primarySeed ship pr pc ≠ secondSeed ship pr pc := by
  intro h
  have h2 := congrArg (fun t : SearchState => t.2.2) h
  simp only [primarySeed_offset, secondSeed_offset] at h2
  omega

theorem rotationSeeds_count_le (ship : Ship) (pr pc : Int) (s : SearchState) :
    (rotationSeeds ship pr pc).count s ≤
      (if s = primarySeed ship pr pc then 1 else 0) +
      (if s = secondSeed ship pr pc then 1 else 0) := by
  rw [rotationSeeds]
  by_cases hs1 : s = primarySeed ship pr pc
  · rw [if_pos hs1]
    have hs2 : s ≠ secondSeed ship pr pc := by
      rw [hs1]
      exact seeds_ne ship pr pc
    rw [if_neg hs2]
    by_cases hpar : ship.size % 2 = 0
    · rw [if_pos hpar, hs1, List.count_cons_self,
        List.count_cons_of_ne (fun hh => hs2 (hs1.symm ▸ hh)), List.count_nil]
    · rw [if_neg hpar, hs1, List.count_cons_self, List.count_nil]
  · rw [if_neg hs1]
    by_cases hs2 : s = secondSeed ship pr pc
    · rw [if_pos hs2]
      by_cases hpar : ship.size % 2 = 0
      · rw [if_pos hpar, List.count_cons_of_ne hs1, hs2,
          List.count_cons_self, List.count_nil]
      · rw [if_neg hpar, List.count_cons_of_ne hs1, List.count_nil]
        omega
    · rw [if_neg hs2]
      by_cases hpar : ship.size % 2 = 0
      · rw [if_pos hpar, List.count_cons_of_ne hs1,
          List.count_cons_of_ne hs2, List.count_nil]
      · rw [if_neg hpar, List.count_cons_of_ne hs1, List.count_nil]

/-- C2 (amended) — for every fleet and placed ship the rotation search
terminates without reaching the fuel bound, and each state is dequeued at
most once — except the even-size second seed, which is enqueued initially
without being marked visited and can therefore be dequeued up to twice;
moreover, whenever at least one legal reoriented pose exists within the
board, the search commits a placement that `canPlaceShipAt` accepts. -/
theorem rotateShip_terminates (pieces : List Ship) (ship : Ship) (pr pc : Int)
    (hpos : ship.position = some (pr, pc)) :
    (∀ s : SearchState, s ≠ secondSeed ship pr pc →
      ((rotBfsTrace pieces ship.name ship.size ship.horizontal searchFuel
        (rotationSeeds ship pr pc) {primarySeed ship pr pc}).2).count s ≤ 1) ∧
    ((rotBfsTrace pieces ship.name ship.size ship.horizontal searchFuel
        (rotationSeeds ship pr pc) {primarySeed ship pr pc}).2).count
        (secondSeed ship pr pc) ≤ 2 ∧
    rotBfs pieces ship.name ship.size ship.horizontal searchFuel
        (rotationSeeds ship pr pc) {primarySeed ship pr pc} ≠ .fuelOut ∧
    (1 ≤ ship.size → placedInBounds ship →
      (∃ tr lc : Int,
        canPlaceShipAt pieces ship.name ship.size tr lc (!ship.horizontal) = true) →
      ∃ tr lc : Int,
        rotBfs pieces ship.name ship.size ship.horizontal searchFuel
          (rotationSeeds ship pr pc) {primarySeed ship pr pc} = .found (tr, lc) ∧
        canPlaceShipAt pieces ship.name ship.size tr lc (!ship.horizontal) = true ∧
        rotateShip pieces ship = pieces.map fun s =>
          if s.name = ship.name then
            { s with horizontal := !s.horizontal, position := some (tr, lc) }
          else s) := by
  refine ⟨?_, ?_, rotBfs_no_fuelOut pieces ship pr pc, ?_⟩
  · intro s hs2
    have hb := rotBfsTrace_count_le pieces ship.name ship.size ship.horizontal s
      searchFuel (rotationSeeds ship pr pc) {primarySeed ship pr pc}
    have hq0 := rotationSeeds_count_le ship pr pc s
    rw [if_neg hs2] at hq0
    by_cases hs1 : s = primarySeed ship pr pc
    · rw [if_pos hs1, if_pos (Finset.mem_singleton.2 hs1)] at *
      omega
    · rw [if_neg hs1] at hq0
      rw [if_neg (fun hh => hs1 (Finset.mem_singleton.1 hh))] at hb
      omega
  · have hb := rotBfsTrace_count_le pieces ship.name ship.size ship.horizontal
      (secondSeed ship pr pc) searchFuel (rotationSeeds ship pr pc)
      {primarySeed ship pr pc}
    have hq0 := rotationSeeds_count_le ship pr pc (secondSeed ship pr pc)
    rw [if_neg (Ne.symm (seeds_ne ship pr pc)), if_pos rfl] at hq0
    rw [if_neg (fun hh =>
      (seeds_ne ship pr pc) (Finset.mem_singleton.1 hh).symm)] at hb
    omega
  · intro hsz hin hval
    obtain ⟨tr, lc, hres, hcp⟩ := rotBfs_complete pieces ship pr pc hpos hsz hin hval
    refine ⟨tr, lc, hres, hcp, ?_⟩
    simp only [rotateShip, hpos, hres]

/-- Witness for C2 (amended) at a concrete input: the Cruiser alone on the
board, which can rotate in place about its pivot column. -/
theorem rotateShip_terminates_witness :
    placedCruiser.position = some (0, 0) ∧ 1 ≤ placedCruiser.size ∧
      placedInBounds placedCruiser ∧
      (∃ tr lc : Int, canPlaceShipAt [placedCruiser] placedCruiser.name
        placedCruiser.size tr lc (!placedCruiser.horizontal) = true) ∧
      (∃ tr lc : Int,
        rotBfs [placedCruiser] placedCruiser.name placedCruiser.size
          placedCruiser.horizontal searchFuel (rotationSeeds placedCruiser 0 0)
          {primarySeed placedCruiser 0 0} = .found (tr, lc) ∧
        canPlaceShipAt [placedCruiser] placedCruiser.name placedCruiser.size tr lc
          (!placedCruiser.horizontal) = true ∧
        rotateShip [placedCruiser] placedCruiser = [placedCruiser].map fun s =>
          if s.name = placedCruiser.name then
            { s with horizontal := !s.horizontal, position := some (tr, lc) }
          else s) :=
  ⟨rfl, by decide, by decide, ⟨0, 1, by decide⟩,
    (rotateShip_terminates [placedCruiser] placedCruiser 0 0 rfl).2.2.2
      (by decide) (by decide) ⟨0, 1, by decide⟩⟩

/-- A 3-wide blocker under the Destroyer's row. -/
def blockerA : Ship := ⟨"BlockerA", 3, some (1, 0), "#000", true⟩

/-- A vertical 2-blocker further down the first column. -/
def blockerB : Ship := ⟨"BlockerB", 2, some (3, 0), "#111", false⟩

/-- A fleet on which the corner Destroyer's rotation search dequeues its
second seed twice before committing. -/
def revisitFleet : List Ship := [cornerDestroyer, blockerA, blockerB]

/-- C2 counterexample — the claim "every (row, col, offset) state is visited
at most once" fails on the code: on `revisitFleet` the search loop dequeues
the second center seed `(0, 1, 1)` twice, because the initial enqueue marks
only the first seed visited. -/
theorem second_seed_dequeued_twice :
    ((rotBfsTrace revisitFleet cornerDestroyer.name cornerDestroyer.size
        cornerDestroyer.horizontal searchFuel (rotationSeeds cornerDestroyer 0 0)
        {primarySeed cornerDestroyer 0 0}).2).count (secondSeed cornerDestroyer 0 0)
      = 2 := by decide

/-! ### Minimality of the committed pose: distance bookkeeping -/

/-- The states the rotation search ranges over: board cells carrying the
pivot offset, or — for even sizes — the offset of the second center cell. -/
def searchSpace (ship : Ship) (s : SearchState) : Prop :=
  inGrid s.1 s.2.1 ∧ (s.2.2 = pivotOffset ship.size ∨
    (ship.size % 2 = 0 ∧ s.2.2 = pivotOffset ship.size + 1))

/-- Cell-grid (manhattan) distance of a frontier entry from the seed that
shares its offset. -/
def seedDist (ship : Ship) (pr pc : Int) (s : SearchState) : Nat :=
  if s.2.2 = pivotOffset ship.size then
    (s.1 - (primarySeed ship pr pc).1).natAbs +
      (s.2.1 - (primarySeed ship pr pc).2.1).natAbs
  else
    (s.1 - (secondSeed ship pr pc).1).natAbs +
      (s.2.1 - (secondSeed ship pr pc).2.1).natAbs

theorem seedDist_prim (ship : Ship) (pr pc : Int) :
    seedDist ship pr pc (primarySeed ship pr pc) = 0 := by
  rw [seedDist, if_pos (primarySeed_offset ship pr pc)]
  omega

theorem seedDist_second (ship : Ship) (pr pc : Int) :
    seedDist ship pr pc (secondSeed ship pr pc) = 0 := by
  have hne : (secondSeed ship pr pc).2.2 ≠ pivotOffset ship.size := by
    rw [secondSeed_offset]
    omega
  rw [seedDist, if_neg hne]
  omega

theorem seedDist_adj (ship : Ship) (pr pc : Int) {x t : SearchState}
    (ht : t ∈ stepNeighbors x) :
    seedDist ship pr pc t = seedDist ship pr pc x + 1 ∨
      seedDist ship pr pc x = seedDist ship pr pc t + 1 := by
  have hoff : t.2.2 = x.2.2 := stepNeighbors_offset ht
  rw [stepNeighbors] at ht
  simp only [List.mem_cons, List.not_mem_nil, or_false] at ht
  by_cases hbr : x.2.2 = pivotOffset ship.size
  · rw [seedDist, seedDist, if_pos hbr, if_pos (hoff.trans hbr)]
    rcases ht with rfl | rfl | rfl | rfl <;> (dsimp only; omega)
  · rw [seedDist, seedDist, if_neg hbr, if_neg (fun hh => hbr (hoff.symm.trans hh))]
    rcases ht with rfl | rfl | rfl | rfl <;> (dsimp only; omega)

theorem seedDist_zero {ship : Ship} {pr pc : Int} {s : SearchState}
    (hsp : searchSpace ship s) (hd : seedDist ship pr pc s = 0) :
    s = primarySeed ship pr pc ∨ s = secondSeed ship pr pc := by
  obtain ⟨hg, hoff⟩ := hsp
  rcases hoff with h1 | ⟨heven, h2⟩
  · left
    rw [seedDist, if_pos h1] at hd
    have e1 : s.1 = (primarySeed ship pr pc).1 := by omega
    have e2 : s.2.1 = (primarySeed ship pr pc).2.1 := by omega
    have e3 : s.2.2 = (primarySeed ship pr pc).2.2 := by
      rw [primarySeed_offset]
      exact h1
    exact Prod.ext e1 (Prod.ext e2 e3)
  · right
    have hne : s.2.2 ≠ pivotOffset ship.size := by omega
    rw [seedDist, if_neg hne] at hd
    have e1 : s.1 = (secondSeed ship pr pc).1 := by omega
    have e2 : s.2.1 = (secondSeed ship pr pc).2.1 := by omega
    have e3 : s.2.2 = (secondSeed ship pr pc).2.2 := by
      rw [secondSeed_offset]
      exact h2
    exact Prod.ext e1 (Prod.ext e2 e3)

/-- On the board, a cell at distance `k + 1` from an on-board anchor has an
on-board neighbor-generator at distance `k` (move one step toward the
anchor). -/
theorem grid_pred {r c r0 c0 : Int} (hrc : inGrid r c) (h0 : inGrid r0 c0)
    {k : Nat} (hd : (r - r0).natAbs + (c - c0).natAbs = k + 1) :
    ∃ r2 c2 : Int, inGrid r2 c2 ∧ (r2 - r0).natAbs + (c2 - c0).natAbs = k ∧
      ∀ o : Int, (r, c, o) ∈ stepNeighbors (r2, c2, o) := by
  rw [inGrid] at hrc h0
  rcases lt_trichotomy r r0 with hlt | heqr | hgt
  · refine ⟨r + 1, c, by rw [inGrid]; omega, by omega, fun o => ?_⟩
    rw [stepNeighbors, show r + 1 - 1 = r from by ring]
    exact List.mem_cons_self _ _
  · rcases lt_trichotomy c c0 with hclt | hceq | hcgt
    · refine ⟨r, c + 1, by rw [inGrid]; omega, by omega, fun o => ?_⟩
      rw [stepNeighbors, show c + 1 - 1 = c from by ring]
      exact List.mem_cons_of_mem _ (List.mem_cons_of_mem _ (List.mem_cons_self _ _))
    · exfalso
      omega
    · refine ⟨r, c - 1, by rw [inGrid]; omega, by omega, fun o => ?_⟩
      rw [stepNeighbors, show c - 1 + 1 = c from by ring]
      exact List.mem_cons_of_mem _ (List.mem_cons_of_mem _
        (List.mem_cons_of_mem _ (List.mem_cons_self _ _)))
  · refine ⟨r - 1, c, by rw [inGrid]; omega, by omega, fun o => ?_⟩
    rw [stepNeighbors, show r - 1 + 1 = r from by ring]
    exact List.mem_cons_of_mem _ (List.mem_cons_self _ _)

/-- For even sizes (of at least two cells) the second seed also sits on one
of the ship's own occupied cells. -/
theorem secondSeed_mem_cells {ship : Ship} {pr pc : Int}
    (hpos : ship.position = some (pr, pc)) (hsz : 2 ≤ ship.size) :
    ((secondSeed ship pr pc).1, (secondSeed ship pr pc).2.1) ∈ shipCells ship := by
  obtain ⟨hoff0, hoff1⟩ := pivotOffset_bounds ship.size (by omega)
  have hoff2 : pivotOffset ship.size + 1 ≤ (ship.size : Int) - 1 := by
    rw [pivotOffset, Int.fdiv_eq_ediv _ (by norm_num)] at *
    omega
  rw [shipCells, hpos]
  cases hh : ship.horizontal
  · rw [mem_placementCells_v]
    refine ⟨(pivotOffset ship.size + 1).toNat, by omega, ?_, ?_⟩
    · show (secondSeed ship pr pc).1 = pr + (((pivotOffset ship.size + 1).toNat : Nat) : Int)
      simp only [secondSeed, primarySeed, hh, Bool.false_eq_true, if_false]
      omega
    · show (secondSeed ship pr pc).2.1 = pc
      simp only [secondSeed, primarySeed, hh, Bool.false_eq_true, if_false]
      ring
  · rw [mem_placementCells_h]
    refine ⟨(pivotOffset ship.size + 1).toNat, by omega, ?_, ?_⟩
    · show (secondSeed ship pr pc).1 = pr
      simp only [secondSeed, primarySeed, hh, if_true]
      ring
    · show (secondSeed ship pr pc).2.1 = pc + (((pivotOffset ship.size + 1).toNat : Nat) : Int)
      simp only [secondSeed, primarySeed, hh, if_true]
      omega

/-- When every in-grid neighbor is already visited, an expansion round
pushes nothing. -/
theorem pushNeighbors_covered {ns q : List SearchState} {v : Finset SearchState}
    (hcover : ∀ n ∈ ns, inGrid n.1 n.2.1 → n ∈ v) :
    pushNeighbors ns q v = (q, v) := by
  induction ns with
  | nil => rfl
  | cons n ns ih =>
    rw [pushNeighbors, if_neg ?_]
    · exact ih fun m hm => hcover m (List.mem_cons_of_mem _ hm)
    · rintro ⟨hgA, hgB⟩
      exact hgB (hcover n (List.mem_cons_self _ _) hgA)

/-- The breadth-first level invariant of the rotation search: the queue
splits into the current level `a` (distance `d` entries, plus possibly
stale re-entries of already-processed states) and the next level `b`;
every processed state (in `P`) failed validation and has all its in-grid
neighbors visited; everything nearer than `d` is processed, and everything
at distance `d` is processed or still queued in `a`. -/
structure BfsInv (pieces : List Ship) (ship : Ship) (pr pc : Int) (d : Nat)
    (a b q : List SearchState) (v P : Finset SearchState) : Prop where
  hq : q = a ++ b
  hSpQ : ∀ s ∈ q, searchSpace ship s
  hSpV : ∀ s ∈ v, searchSpace ship s
  hPinv : ∀ s ∈ P, ¬ validState pieces ship.name ship.size ship.horizontal s
  hVQ : ∀ s ∈ v, s ∈ P ∨ s ∈ q
  hPcl : ∀ s ∈ P, ∀ t ∈ stepNeighbors s, inGrid t.1 t.2.1 → t ∈ v
  hA : ∀ x ∈ a, seedDist ship pr pc x = d ∨ x ∈ P
  hB : ∀ x ∈ b, seedDist ship pr pc x = d + 1 ∨ x ∈ P
  hLt : ∀ s : SearchState, searchSpace ship s → seedDist ship pr pc s < d → s ∈ P
  hEq : ∀ s : SearchState, searchSpace ship s → seedDist ship pr pc s = d →
    s ∈ P ∨ s ∈ a

/-- Advancing to the next level preserves the invariant once the current
level segment is drained. -/
theorem BfsInv.advance {pieces : List Ship} {ship : Ship} {pr pc : Int} {d : Nat}
    {b q : List SearchState} {v P : Finset SearchState}
    (hg1 : inGrid (primarySeed ship pr pc).1 (primarySeed ship pr pc).2.1)
    (hg2 : ship.size % 2 = 0 →
      inGrid (secondSeed ship pr pc).1 (secondSeed ship pr pc).2.1)
    (hinv : BfsInv pieces ship pr pc d [] b q v P) :
    BfsInv pieces ship pr pc (d + 1) b [] q v P := by
  obtain ⟨hq, hSpQ, hSpV, hPinv, hVQ, hPcl, hA, hB, hLt, hEq⟩ := hinv
  rw [List.nil_append] at hq
  refine ⟨by rw [hq, List.append_nil], hSpQ, hSpV, hPinv, hVQ, hPcl, hB,
    by simp, ?_, ?_⟩
  · intro s hsp hd
    rcases Nat.lt_succ_iff_lt_or_eq.1 hd with hlt | heq2
    · exact hLt s hsp hlt
    · rcases hEq s hsp heq2 with hP | hA2
      · exact hP
      · cases hA2
  · intro s hsp hdist
    -- a state at the new level has an in-grid generator at the old level
    obtain ⟨hg, hoffs⟩ := hsp
    rcases hoffs with h1 | ⟨heven, h2⟩
    · rw [seedDist, if_pos h1] at hdist
      obtain ⟨r2, c2, hg2b, hd2, hmem⟩ := grid_pred hg hg1 hdist
      have ht0 := hEq (r2, c2, s.2.2) ⟨hg2b, Or.inl h1⟩
        (by rw [seedDist, if_pos h1]; exact hd2)
      rcases ht0 with ht | htnil
      · have hs_v : s ∈ v := hPcl _ ht s (hmem s.2.2) hg
        rcases hVQ s hs_v with hP | hQ
        · exact Or.inl hP
        · rw [hq] at hQ
          exact Or.inr hQ
      · cases htnil
    · have hne : s.2.2 ≠ pivotOffset ship.size := by omega
      rw [seedDist, if_neg hne] at hdist
      obtain ⟨r2, c2, hg2b, hd2, hmem⟩ := grid_pred hg (hg2 heven) hdist
      have ht0 := hEq (r2, c2, s.2.2) ⟨hg2b, Or.inr ⟨heven, h2⟩⟩
        (by rw [seedDist, if_neg hne]; exact hd2)
      rcases ht0 with ht | htnil
      · have hs_v : s ∈ v := hPcl _ ht s (hmem s.2.2) hg
        rcases hVQ s hs_v with hP | hQ
        · exact Or.inl hP
        · rw [hq] at hQ
          exact Or.inr hQ
      · cases htnil

theorem BfsInv.step {pieces : List Ship} {ship : Ship} {pr pc : Int} {d : Nat}
    {x : SearchState} {a0 b rest : List SearchState} {v P : Finset SearchState}
    (hinv : BfsInv pieces ship pr pc d (x :: a0) b (x :: rest) v P)
    (hcb : canPlaceShipAt pieces ship.name ship.size
      (candidateOrigin ship.horizontal x).1 (candidateOrigin ship.horizontal x).2
      (!ship.horizontal) = false) :
    ∃ b2 : List SearchState, BfsInv pieces ship pr pc d a0 b2
      (pushNeighbors (stepNeighbors x) rest v).1
      (pushNeighbors (stepNeighbors x) rest v).2 (insert x P) := by
  obtain ⟨hq, hSpQ, hSpV, hPinv, hVQ, hPcl, hA, hB, hLt, hEq⟩ := hinv
  rw [List.cons_append] at hq
  injection hq with hq1 hqrest
  obtain ⟨F, heq, hnd, hmemF, hcov⟩ := pushNeighbors_spec (stepNeighbors x) rest v
  have h1 : (pushNeighbors (stepNeighbors x) rest v).1 = rest ++ F := by rw [heq]
  have h2 : (pushNeighbors (stepNeighbors x) rest v).2 = v ∪ F.toFinset := by rw [heq]
  rw [h1, h2]
  have hxsp : searchSpace ship x := hSpQ x (List.mem_cons_self _ _)
  have hFsp : ∀ f ∈ F, searchSpace ship f := by
    intro f hf
    obtain ⟨hfn, hfg, -⟩ := hmemF f hf
    have hfo : f.2.2 = x.2.2 := stepNeighbors_offset hfn
    refine ⟨hfg, ?_⟩
    rw [hfo]
    exact hxsp.2
  refine ⟨b ++ F, ?_, ?_, ?_, ?_, ?_, ?_, ?_, ?_, ?_, ?_⟩
  · rw [hqrest, List.append_assoc]
  · intro s hs
    rcases List.mem_append.1 hs with hs | hs
    · exact hSpQ s (List.mem_cons_of_mem _ hs)
    · exact hFsp s hs
  · intro s hs
    rcases Finset.mem_union.1 hs with hs | hs
    · exact hSpV s hs
    · exact hFsp s (List.mem_toFinset.1 hs)
  · intro s hs
    rcases Finset.mem_insert.1 hs with rfl | hs
    · intro hval
      rw [validState] at hval
      rw [hval] at hcb
      cases hcb
    · exact hPinv s hs
  · intro s hs
    rcases Finset.mem_union.1 hs with hs | hs
    · rcases hVQ s hs with hP | hQ
      · exact Or.inl (Finset.mem_insert_of_mem hP)
      · rcases List.mem_cons.1 hQ with rfl | hrest
        · exact Or.inl (Finset.mem_insert_self _ _)
        · exact Or.inr (List.mem_append_left _ hrest)
    · exact Or.inr (List.mem_append_right _ (List.mem_toFinset.1 hs))
  · intro s hs
    rcases Finset.mem_insert.1 hs with rfl | hs
    · intro t ht htg
      exact hcov t ht htg
    · intro t ht htg
      exact Finset.mem_union_left _ (hPcl s hs t ht htg)
  · intro y hy
    rcases hA y (List.mem_cons_of_mem _ hy) with hd1 | hP
    · exact Or.inl hd1
    · exact Or.inr (Finset.mem_insert_of_mem hP)
  · intro f hf
    rcases List.mem_append.1 hf with hf | hf
    · rcases hB f hf with hd1 | hP
      · exact Or.inl hd1
      · exact Or.inr (Finset.mem_insert_of_mem hP)
    · rcases hA x (List.mem_cons_self _ _) with hdx | hxP
      · obtain ⟨hfn, hfg, hfv⟩ := hmemF f hf
        rcases seedDist_adj ship pr pc hfn with hup | hdown
        · left
          rw [hup, hdx]
        · right
          apply Finset.mem_insert_of_mem
          apply hLt f (hFsp f hf)
          omega
      · obtain ⟨hfn, hfg, hfv⟩ := hmemF f hf
        exact absurd (hPcl x hxP f hfn hfg) hfv
  · intro s hsp hlt
    exact Finset.mem_insert_of_mem (hLt s hsp hlt)
  · intro s hsp hd0
    rcases hEq s hsp hd0 with hP | hQ
    · exact Or.inl (Finset.mem_insert_of_mem hP)
    · rcases List.mem_cons.1 hQ with rfl | ha0
      · exact Or.inl (Finset.mem_insert_self _ _)
      · exact Or.inr ha0

/-- A nonempty queue can always be presented with its head at the front of
the current level segment, advancing the level if the segment is drained. -/
theorem BfsInv.head_in_a {pieces : List Ship} {ship : Ship} {pr pc : Int} {d : Nat}
    {a b rest : List SearchState} {x : SearchState} {v P : Finset SearchState}
    (hg1 : inGrid (primarySeed ship pr pc).1 (primarySeed ship pr pc).2.1)
    (hg2 : ship.size % 2 = 0 →
      inGrid (secondSeed ship pr pc).1 (secondSeed ship pr pc).2.1)
    (hinv : BfsInv pieces ship pr pc d a b (x :: rest) v P) :
    ∃ d2 a0 b2, BfsInv pieces ship pr pc d2 (x :: a0) b2 (x :: rest) v P := by
  cases a with
  | nil =>
    have hadv := hinv.advance hg1 hg2
    have hb : b = x :: rest := by
      have hq2 := hadv.hq
      rw [List.append_nil] at hq2
      exact hq2.symm
    subst hb
    exact ⟨d + 1, rest, [], hadv⟩
  | cons y a0 =>
    have hq2 := hinv.hq
    rw [List.cons_append] at hq2
    injection hq2 with hy hrest
    subst hy
    exact ⟨d, a0, b, hinv⟩

/-- The committed pose of the search is a valid frontier entry of minimum
seed distance among all valid entries of the search space. -/
theorem rotBfs_found_minimal (pieces : List Ship) (ship : Ship) (pr pc : Int)
    (hg1 : inGrid (primarySeed ship pr pc).1 (primarySeed ship pr pc).2.1)
    (hg2 : ship.size % 2 = 0 →
      inGrid (secondSeed ship pr pc).1 (secondSeed ship pr pc).2.1) :
    ∀ (fuel : Nat) (q : List SearchState) (v : Finset SearchState),
      (∃ d a b P, BfsInv pieces ship pr pc d a b q v P) →
      ∀ org : Int × Int,
        rotBfs pieces ship.name ship.size ship.horizontal fuel q v = .found org →
        ∃ x : SearchState, searchSpace ship x ∧
          candidateOrigin ship.horizontal x = org ∧
          validState pieces ship.name ship.size ship.horizontal x ∧
          ∀ t : SearchState, searchSpace ship t →
            validState pieces ship.name ship.size ship.horizontal t →
            seedDist ship pr pc x ≤ seedDist ship pr pc t := by
  intro fuel
  induction fuel with
  | zero =>
    intro q v _ org hres
    simp only [rotBfs] at hres
    cases hres
  | succ fuel ih =>
    intro q v hinv0 org hres
    obtain ⟨d0, a0, b0, P, hinv0⟩ := hinv0
    cases q with
    | nil =>
      simp only [rotBfs] at hres
      cases hres
    | cons x rest =>
      obtain ⟨d, a1, b1, hinv⟩ := hinv0.head_in_a hg1 hg2
      cases hcb : canPlaceShipAt pieces ship.name ship.size
          (candidateOrigin ship.horizontal x).1 (candidateOrigin ship.horizontal x).2
          (!ship.horizontal) with
      | true =>
        rw [rotBfs_step_found hcb] at hres
        cases hres
        have hxsp := hinv.hSpQ x (List.mem_cons_self _ _)
        refine ⟨x, hxsp, rfl, hcb, ?_⟩
        intro t htsp htval
        have hxnP : x ∉ P := fun hxP => (hinv.hPinv x hxP) hcb
        have hdx : seedDist ship pr pc x = d := by
          rcases hinv.hA x (List.mem_cons_self _ _) with hh | hh
          · exact hh
          · exact absurd hh hxnP
        by_contra hcon
        push_neg at hcon
        have htP : t ∈ P := hinv.hLt t htsp (by omega)
        exact (hinv.hPinv t htP) htval
      | false =>
        rw [rotBfs_step_next hcb] at hres
        obtain ⟨b2, hinv2⟩ := hinv.step hcb
        exact ih _ _ ⟨d, a1, b2, insert x P, hinv2⟩ org hres

/-- The invariant holds at the start of the search. -/
theorem bfsInv_init (pieces : List Ship) (ship : Ship) (pr pc : Int)
    (hg1 : inGrid (primarySeed ship pr pc).1 (primarySeed ship pr pc).2.1)
    (hg2 : ship.size % 2 = 0 →
      inGrid (secondSeed ship pr pc).1 (secondSeed ship pr pc).2.1) :
    BfsInv pieces ship pr pc 0 (rotationSeeds ship pr pc) []
      (rotationSeeds ship pr pc) {primarySeed ship pr pc} ∅ := by
  have hprimSp : searchSpace ship (primarySeed ship pr pc) :=
    ⟨hg1, Or.inl (primarySeed_offset ship pr pc)⟩
  have hseedsSp : ∀ s ∈ rotationSeeds ship pr pc, searchSpace ship s := by
    intro s hs
    rw [rotationSeeds] at hs
    by_cases hpar : ship.size % 2 = 0
    · rw [if_pos hpar] at hs
      simp only [List.mem_cons, List.not_mem_nil, or_false] at hs
      rcases hs with rfl | rfl
      · exact hprimSp
      · exact ⟨hg2 hpar, Or.inr ⟨hpar, secondSeed_offset ship pr pc⟩⟩
    · rw [if_neg hpar] at hs
      simp only [List.mem_cons, List.not_mem_nil, or_false] at hs
      rw [hs]
      exact hprimSp
  have hprimQ : primarySeed ship pr pc ∈ rotationSeeds ship pr pc := by
    rw [rotationSeeds]
    by_cases hpar : ship.size % 2 = 0
    · rw [if_pos hpar]
      exact List.mem_cons_self _ _
    · rw [if_neg hpar]
      exact List.mem_cons_self _ _
  refine ⟨(List.append_nil _).symm, hseedsSp, ?_, by simp, ?_, by simp, ?_, by simp,
    ?_, ?_⟩
  · intro s hs
    rw [Finset.mem_singleton] at hs
    rw [hs]
    exact hprimSp
  · intro s hs
    rw [Finset.mem_singleton] at hs
    right
    rw [hs]
    exact hprimQ
  · intro s hs
    left
    rw [rotationSeeds] at hs
    by_cases hpar : ship.size % 2 = 0
    · rw [if_pos hpar] at hs
      simp only [List.mem_cons, List.not_mem_nil, or_false] at hs
      rcases hs with rfl | rfl
      · exact seedDist_prim ship pr pc
      · exact seedDist_second ship pr pc
    · rw [if_neg hpar] at hs
      simp only [List.mem_cons, List.not_mem_nil, or_false] at hs
      rw [hs]
      exact seedDist_prim ship pr pc
  · intro s _ hlt
    exact absurd hlt (Nat.not_lt_zero _)
  · intro s hsp hd0
    right
    rcases seedDist_zero hsp hd0 with rfl | rfl
    · exact hprimQ
    · rcases hsp.2 with hoff | ⟨heven, -⟩
      · rw [secondSeed_offset] at hoff
        omega
      · rw [rotationSeeds, if_pos heven]
        exact List.mem_cons_of_mem _ (List.mem_cons_self _ _)

/-- C1 — when `rotateShip` commits a pose, that pose is the first valid
frontier entry the breadth-first search meets, and consequently its pivot
is at minimum cell-grid distance from the seed sharing its offset among all
valid candidate poses of the search space (both center cells are seeded for
even sizes, only the pivot for odd sizes). -/
theorem rotateShip_commits_nearest (pieces : List Ship) (ship : Ship) (pr pc : Int)
    (hpos : ship.position = some (pr, pc)) (hsz : 1 ≤ ship.size)
    (hin : placedInBounds ship) :
    ∀ tr lc : Int,
      rotBfs pieces ship.name ship.size ship.horizontal searchFuel
        (rotationSeeds ship pr pc) {primarySeed ship pr pc} = .found (tr, lc) →
      rotateShip pieces ship = (pieces.map fun s =>
        if s.name = ship.name then
          { s with horizontal := !s.horizontal, position := some (tr, lc) }
        else s) ∧
      ∃ x : SearchState, searchSpace ship x ∧
        candidateOrigin ship.horizontal x = (tr, lc) ∧
        validState pieces ship.name ship.size ship.horizontal x ∧
        ∀ t : SearchState, searchSpace ship t →
          validState pieces ship.name ship.size ship.horizontal t →
          seedDist ship pr pc x ≤ seedDist ship pr pc t := by
  intro tr lc hres
  have hg1 : inGrid (primarySeed ship pr pc).1 (primarySeed ship pr pc).2.1 :=
    hin _ (primarySeed_mem_cells hpos hsz)
  have hg2 : ship.size % 2 = 0 →
      inGrid (secondSeed ship pr pc).1 (secondSeed ship pr pc).2.1 := by
    intro heven
    exact hin _ (secondSeed_mem_cells hpos (by omega))
  constructor
  · simp only [rotateShip, hpos, hres]
  · exact rotBfs_found_minimal pieces ship pr pc hg1 hg2 searchFuel _ _
      ⟨0, _, _, _, bfsInv_init pieces ship pr pc hg1 hg2⟩ (tr, lc) hres

/-- Witness for C1 at a concrete input: the Cruiser alone on the board,
whose search commits the vertical pose at `(0, 1)`. -/
theorem rotateShip_commits_nearest_witness :
    placedCruiser.position = some (0, 0) ∧ 1 ≤ placedCruiser.size ∧
      placedInBounds placedCruiser ∧
      rotBfs [placedCruiser] placedCruiser.name placedCruiser.size
        placedCruiser.horizontal searchFuel (rotationSeeds placedCruiser 0 0)
        {primarySeed placedCruiser 0 0} = .found (0, 1) ∧
      (rotateShip [placedCruiser] placedCruiser = ([placedCruiser].map fun s =>
        if s.name = placedCruiser.name then
          { s with horizontal := !s.horizontal, position := some (0, 1) }
        else s) ∧
      ∃ x : SearchState, searchSpace placedCruiser x ∧
        candidateOrigin placedCruiser.horizontal x = (0, 1) ∧
        validState [placedCruiser] placedCruiser.name placedCruiser.size
          placedCruiser.horizontal x ∧
        ∀ t : SearchState, searchSpace placedCruiser t →
          validState [placedCruiser] placedCruiser.name placedCruiser.size
            placedCruiser.horizontal t →
          seedDist placedCruiser 0 0 x ≤ seedDist placedCruiser 0 0 t) :=
  ⟨rfl, by decide, by decide, by decide,
    rotateShip_commits_nearest [placedCruiser] placedCruiser 0 0 rfl (by decide)
      (by decide) 0 1 (by decide)⟩

end Battleship
